import Mathlib

/-!
# TulipBroker — verification of the order intake / matching / reconciliation core

This file shallowly embeds the TulipBroker order pipeline and proves the
spec's claims about it.

* `submitOrder` is translated from the TypeScript function
  `src/matching/submitOrder.ts` shown in the repository material
  (`src/unnamed/part_002`, lines 182–209), together with small models of the
  DynamoDB conditional put and the SQS FIFO send it performs.
* The matching engine, the cancel handler and the reconciliation pass are not
  present under `src/`; they are modelled from the normative rules document
  (`src/aiprompts/rules.md`) and the specification, as marked on each
  definition.

Machine integers: the TypeScript numbers involved (`qty`, `price`,
timestamps) are modelled as `Int`/`Nat`; no arithmetic in the embedded code
can overflow a double in the ranges the program uses, and no claim depends on
overflow behaviour.
-/

/-! ## Part 1 — the intake write path (`submitOrder`, from `src/unnamed/part_002`) -/

/-- Argument record of `submitOrder` (TS `SubmitOrderCmd`): the caller
supplies `orderId`, `clientId`, `idempotencyKey`, `side`, `qty`, `price`,
`symbol`. -/
structure SubmitOrderCmd where
  orderId : String
  clientId : String
  idempotencyKey : String
  side : String
  qty : Int
  price : Int
  symbol : String
deriving Repr, DecidableEq

/-- One item of the DynamoDB `Orders` table, with the attributes
`submitOrder` writes. -/
structure OrderItem where
  pk : String
  sk : String
  clientId : String
  side : String
  qty : Int
  price : Int
  status : String
  idempotencyKey : String
  createdAt : Nat
deriving Repr, DecidableEq

/-- Body of the `OrderAccepted` message `submitOrder` enqueues
(`JSON.stringify({ type: "OrderAccepted", pk })`), kept structured. -/
structure MsgBody where
  type : String
  pk : String
deriving Repr, DecidableEq

/-- One message of the SQS FIFO queue as sent by `submitOrder`
(`MessageGroupId`, `MessageDeduplicationId`, `MessageBody`). -/
structure FifoMessage where
  groupId : String
  dedupId : String
  body : MsgBody
deriving Repr, DecidableEq

/-- The state `submitOrder` touches: the DynamoDB `Orders` table, the SQS
FIFO queue (enqueued messages, oldest first, plus the deduplication ids
currently inside the dedup window), and the wall clock read by
`Date.now()`. -/
structure AwsState where
  ordersTable : List OrderItem
  queue : List FifoMessage
  dedupWindow : List String
  now : Nat
deriving Repr, DecidableEq

/-- Error raised by a DynamoDB conditional put whose condition fails. -/
inductive DdbError where
  | conditionalCheckFailed
deriving Repr, DecidableEq

/-- `` pk = `ORDER#${cmd.orderId}` `` -/
def orderPk (cmd : SubmitOrderCmd) : String :=
  "ORDER#" ++ cmd.orderId

/-- `` ik = `CLIENT#${cmd.clientId}#IK#${cmd.idempotencyKey}` `` -/
def compoundIk (clientId idempotencyKey : String) : String :=
  "CLIENT#" ++ clientId ++ "#IK#" ++ idempotencyKey

/-- DynamoDB `put` with `ConditionExpression: "attribute_not_exists(pk)"`:
the insert succeeds only when no item with the same `pk` exists. -/
def ddbConditionalPut (item : OrderItem) (st : AwsState) : Except DdbError AwsState :=
  if st.ordersTable.any (fun it => it.pk == item.pk) then
    Except.error DdbError.conditionalCheckFailed
  else
    Except.ok { st with ordersTable := st.ordersTable ++ [item] }

/-- SQS FIFO `sendMessage`: a message whose `MessageDeduplicationId` is still
inside the dedup window is accepted but not enqueued again; otherwise it is
appended to the queue and its dedup id recorded. -/
def sqsSendFifo (groupId dedupId : String) (body : MsgBody) (st : AwsState) : AwsState :=
  if st.dedupWindow.contains dedupId then st
  else
    { st with
      queue := st.queue ++ [⟨groupId, dedupId, body⟩]
      dedupWindow := dedupId :: st.dedupWindow }

/-- Observable side effects of one `submitOrder` call, in program order. -/
inductive IntakeEffect where
  | ddbPut (pk : String) (status : String)
  | sqsPublish (dedupId : String)
deriving Repr, DecidableEq

/-- `submitOrder` from `src/unnamed/part_002` (`src/matching/submitOrder.ts`):
build `pk` and `ik`, conditionally put the order item with
`status: "ACCEPTED"`, then send the `OrderAccepted` message with
`MessageGroupId = market-<symbol>` and `MessageDeduplicationId = ik`.
The returned triple is (state after the call, trace of durable side effects
in the order they happened, outcome): a failed conditional put rejects the
call before anything is persisted or published. -/
def submitOrder (cmd : SubmitOrderCmd) (st : AwsState) :
    AwsState × List IntakeEffect × Except DdbError Unit :=
  let pk := orderPk cmd
  let ik := compoundIk cmd.clientId cmd.idempotencyKey
  let item : OrderItem :=
    { pk := pk, sk := pk, clientId := cmd.clientId, side := cmd.side,
      qty := cmd.qty, price := cmd.price, status := "ACCEPTED",
      idempotencyKey := ik, createdAt := st.now }
  match ddbConditionalPut item st with
  | Except.error e => (st, [], Except.error e)
  | Except.ok st1 =>
      let st2 := sqsSendFifo ("market-" ++ cmd.symbol) ik ⟨"OrderAccepted", pk⟩ st1
      (st2, [IntakeEffect.ddbPut pk "ACCEPTED", IntakeEffect.sqsPublish ik], Except.ok ())

/-- Number of items of an orders table carrying a given `pk`. -/
def countPk (items : List OrderItem) (pk : String) : Nat :=
  (items.filter (fun it => it.pk == pk)).length

/-- Number of queued `OrderAccepted` messages with a given dedup id. -/
def countAccepted (st : AwsState) (dedupId : String) : Nat :=
  (st.queue.filter (fun m => m.dedupId == dedupId && m.body.type == "OrderAccepted")).length

/-- The empty AWS state (fresh table, empty queue). -/
def awsEmpty : AwsState :=
  { ordersTable := [], queue := [], dedupWindow := [], now := 0 }

/-! ## Part 2 — the validating submit handler (modelled from the spec) -/

/-- Modelled from the spec: the raw submit request body accepted by the HTTP
handler, `{clientId, idempotencyKey, side, quantity, price, timeInForce,
symbol}` (spec §6). The validating handler itself (`src/handlers/orders.py`)
is not under `src/`. -/
structure RawSubmit where
  clientId : String
  idempotencyKey : String
  side : String
  quantity : Int
  price : Int
  timeInForce : String
  symbol : String
deriving Repr, DecidableEq

/-- Modelled from the spec: the `ValidationError` taxonomy entry of §7,
refined by which field was malformed. -/
inductive ValidationError where
  | badSide
  | badQuantity
  | badPrice
  | badTimeInForce
deriving Repr, DecidableEq

/-- Modelled from the spec: "Validates side, quantity>0, price>0,
timeInForce" (spec §4.1); side must be BUY or SELL and timeInForce GTC or
IOC (spec §3). Returns the first validation error, or `none` for a
well-formed request. -/
def validateSubmit (r : RawSubmit) : Option ValidationError :=
  if ¬ (r.side = "BUY" ∨ r.side = "SELL") then some ValidationError.badSide
  else if ¬ (0 < r.quantity) then some ValidationError.badQuantity
  else if ¬ (0 < r.price) then some ValidationError.badPrice
  else if ¬ (r.timeInForce = "GTC" ∨ r.timeInForce = "IOC") then
    some ValidationError.badTimeInForce
  else none

/-- Modelled from the spec: an `IdempotencyRecord`
`{compoundKey, orderId, createdAt}` (spec §3). -/
structure IdemRecord where
  compoundKey : String
  orderId : String
  createdAt : Nat
deriving Repr, DecidableEq

/-- Modelled from the spec: the order row the Intake Gatekeeper durably
persists. -/
structure GOrder where
  orderId : String
  clientId : String
  side : String
  quantity : Int
  price : Int
  timeInForce : String
  status : String
deriving Repr, DecidableEq

/-- Modelled from the spec: an event on the ordered event channel, with its
`dedupeKey`. -/
structure GEvent where
  type : String
  orderId : String
  dedupeKey : String
deriving Repr, DecidableEq

/-- Modelled from the spec: the durable state the Intake Gatekeeper touches —
the Idempotency Store, the persisted orders, and the event channel with its
dedup window. -/
structure GatewayState where
  idem : List IdemRecord
  orders : List GOrder
  channel : List GEvent
  channelDedup : List String
  now : Nat
deriving Repr, DecidableEq

/-- Outcome of one submit call: created / duplicate-resubmit / rejected
(spec §6, §7). -/
inductive SubmitOutcome where
  | created (orderId : String)
  | duplicate (orderId : String)
  | rejected (e : ValidationError)
deriving Repr, DecidableEq

/-- Lookup of the idempotency record for a compound key. -/
def idemLookup (idem : List IdemRecord) (ck : String) : Option IdemRecord :=
  idem.find? (fun record => record.compoundKey == ck)

/-- Modelled from the spec: the Intake Gatekeeper's `submit` (spec §4.1) —
validate; compute the compound key of `(clientId, idempotencyKey)` (the hash
is modelled by the injective encoding `compoundIk`); conditionally insert
the IdempotencyRecord, answering "duplicate" with the existing `orderId`
when it already exists; only then durably persist the Order (status=PENDING)
and publish `OrderAccepted` with `dedupeKey = compoundKey`. `newOrderId` is
the server-generated id for this call. -/
def gatekeeperSubmit (r : RawSubmit) (newOrderId : String) (gw : GatewayState) :
    GatewayState × SubmitOutcome :=
  match validateSubmit r with
  | some e => (gw, SubmitOutcome.rejected e)
  | none =>
      let ck := compoundIk r.clientId r.idempotencyKey
      match idemLookup gw.idem ck with
      | some record => (gw, SubmitOutcome.duplicate record.orderId)
      | none =>
          let gw1 := { gw with idem := (⟨ck, newOrderId, gw.now⟩ : IdemRecord) :: gw.idem }
          let gw2 := { gw1 with
            orders := gw1.orders ++
              [(⟨newOrderId, r.clientId, r.side, r.quantity, r.price,
                r.timeInForce, "PENDING"⟩ : GOrder)] }
          let gw3 :=
            if gw2.channelDedup.contains ck then gw2
            else { gw2 with
              channel := gw2.channel ++ [(⟨"OrderAccepted", newOrderId, ck⟩ : GEvent)]
              channelDedup := ck :: gw2.channelDedup }
          (gw3, SubmitOutcome.created newOrderId)

/-- The empty gateway state. -/
def gwEmpty : GatewayState :=
  { idem := [], orders := [], channel := [], channelDedup := [], now := 0 }

/-! ## Concrete inputs used by closed theorems -/

/-- First submission of the duplicate-idempotency-key scenario: a client
retry that regenerated the server-side `orderId`. -/
def c1CmdA : SubmitOrderCmd :=
  { orderId := "o-1a", clientId := "c-1", idempotencyKey := "ik-1",
    side := "BUY", qty := 10, price := 100, symbol := "PBKR" }

/-- Second submission: identical `(clientId, idempotencyKey)`, fresh
`orderId`. -/
def c1CmdB : SubmitOrderCmd :=
  { orderId := "o-1b", clientId := "c-1", idempotencyKey := "ik-1",
    side := "BUY", qty := 10, price := 100, symbol := "PBKR" }

/-- A well-formed submit command used to inspect the persisted status. -/
def c7Cmd : SubmitOrderCmd :=
  { orderId := "o-7", clientId := "c-7", idempotencyKey := "ik-7",
    side := "SELL", qty := 5, price := 101, symbol := "PBKR" }

/-- A malformed submit request (`quantity = -5`). -/
def c8BadRaw : RawSubmit :=
  { clientId := "c-8", idempotencyKey := "ik-8", side := "BUY",
    quantity := -5, price := 100, timeInForce := "GTC", symbol := "PBKR" }

/-! ## Part 3 — the matching engine

The engine itself (Phase-1 SimFill worker / future real matcher) is not
present under `src/`; every definition of this part is modelled from the
normative matching rules (`src/aiprompts/rules.md` §6, spec §4.3): price-time
priority, maker price, `min` quantity, IOC cancellation of the remainder,
idempotent handlers under redelivery (last-applied `seq` marker plus the
`orderId` guard), and dead-lettering of malformed events. -/

/-- Modelled from the spec: order side. -/
inductive Side where
  | buy
  | sell
deriving Repr, DecidableEq

/-- Modelled from the spec: time in force, GTC or IOC. -/
inductive Tif where
  | gtc
  | ioc
deriving Repr, DecidableEq

/-- Modelled from the spec: engine-side order status; `partlyFilled` stands
for the spec's `PARTIALLY_FILLED`, `opened` for `OPEN`. -/
inductive OrderStatus where
  | opened
  | partlyFilled
  | filled
  | cancelled
deriving Repr, DecidableEq

/-- An order is open while it can still trade or be cancelled. -/
def OrderStatus.isOpen : OrderStatus → Bool
  | OrderStatus.opened => true
  | OrderStatus.partlyFilled => true
  | _ => false

/-- Modelled from the spec: the order carried by an `OrderAccepted` event;
`acceptedAt` is the timestamp at which the durable write succeeded. -/
structure IncOrder where
  orderId : String
  side : Side
  quantity : Int
  price : Int
  timeInForce : Tif
  acceptedAt : Nat
deriving Repr, DecidableEq

/-- A resting order on one side of the in-memory book. -/
structure Resting where
  orderId : String
  price : Int
  acceptedAt : Nat
  remaining : Int
deriving Repr, DecidableEq

/-- An order row of the Trade Ledger as maintained by the engine. -/
structure LOrder where
  orderId : String
  side : Side
  quantity : Int
  price : Int
  timeInForce : Tif
  acceptedAt : Nat
  status : OrderStatus
  filled : Int
deriving Repr, DecidableEq

/-- A trade row: created once at match time, never mutated. -/
structure TradeRec where
  tradeId : String
  buyOrderId : String
  sellOrderId : String
  price : Int
  quantity : Int
  timestamp : Nat
deriving Repr, DecidableEq

/-- Events consumed by one matching shard, with their per-shard sequence
numbers (strictly increasing from 1 on the wire; redelivery repeats old
sequence numbers). -/
inductive MEvent where
  | accepted (seq : Nat) (inc : IncOrder)
  | cancelled (seq : Nat) (orderId : String)
deriving Repr, DecidableEq

/-- Sequence number of an event. -/
def MEvent.seq : MEvent → Nat
  | MEvent.accepted s _ => s
  | MEvent.cancelled s _ => s

/-- State of one matching shard: the two book sides, the ledger rows, the
executed trades, the dead-letter list, the last applied sequence number and
the deterministic trade counter. -/
structure ShardState where
  bids : List Resting
  asks : List Resting
  orders : List LOrder
  trades : List TradeRec
  deadLetter : List MEvent
  lastSeq : Nat
  tradeCount : Nat
deriving Repr, DecidableEq

/-- The fresh shard. -/
def shard0 : ShardState :=
  { bids := [], asks := [], orders := [], trades := [], deadLetter := [],
    lastSeq := 0, tradeCount := 0 }

/-- Price component of book priority: bids are price-descending, asks
price-ascending. -/
def priceKey : Side → Resting → Int
  | Side.buy, r => -r.price
  | Side.sell, r => r.price

/-- `bookLe side a b`: on a `side` book, `a` has priority at least that of
`b` — better price first, then earlier `acceptedAt` (FIFO within a price
level). -/
def bookLe (side : Side) (a b : Resting) : Prop :=
  priceKey side a < priceKey side b ∨
    (priceKey side a = priceKey side b ∧ a.acceptedAt ≤ b.acceptedAt)

instance (side : Side) : DecidableRel (bookLe side) := fun a b => by
  unfold bookLe
  infer_instance

instance (side : Side) : IsTotal Resting (bookLe side) where
  total a b := by
    unfold bookLe
    rcases lt_trichotomy (priceKey side a) (priceKey side b) with h | h | h
    · exact Or.inl (Or.inl h)
    · rcases le_total a.acceptedAt b.acceptedAt with h2 | h2
      · exact Or.inl (Or.inr ⟨h, h2⟩)
      · exact Or.inr (Or.inr ⟨h.symm, h2⟩)
    · exact Or.inr (Or.inl h)

instance (side : Side) : IsTrans Resting (bookLe side) where
  trans a b c hab hbc := by
    unfold bookLe at *
    rcases hab with h1 | ⟨h1, h1t⟩ <;> rcases hbc with h2 | ⟨h2, h2t⟩
    · exact Or.inl (h1.trans h2)
    · exact Or.inl (h2 ▸ h1)
    · exact Or.inl (h1 ▸ h2)
    · exact Or.inr ⟨h1.trans h2, h1t.trans h2t⟩

/-- Crossing rule (rules.md §6): a BUY crosses a resting ask when
`restPrice ≤ incPrice`; a SELL crosses a resting bid when
`incPrice ≤ restPrice`. -/
def crossesB : Side → Int → Int → Bool
  | Side.buy, incPrice, restPrice => decide (restPrice ≤ incPrice)
  | Side.sell, incPrice, restPrice => decide (incPrice ≤ restPrice)

/-- One maker-taker trade produced by the matching loop: resting (maker)
order id, trade price (the resting order's price), quantity. -/
structure MTrade where
  restingId : String
  price : Int
  qty : Int
deriving Repr, DecidableEq

/-- Modelled from the spec (§4.3 steps 2–5): match an incoming order with
`rem` still unfilled against the opposite book (best resting order first).
While the incoming order remains and the best resting order crosses, trade
`min(remaining(incoming), remaining(resting))` at the resting order's
price: a fully consumed resting order leaves the book and matching
continues; a partial fill of the resting order exhausts the incoming order
and ends the loop. Returns (trades, unfilled remainder, new opposite
book). -/
def matchLoop (side : Side) (incPrice : Int) :
    Int → List Resting → List MTrade × Int × List Resting
  | rem, [] => ([], rem, [])
  | rem, r :: rest =>
      if 0 < rem ∧ crossesB side incPrice r.price = true then
        if r.remaining ≤ rem then
          let res := matchLoop side incPrice (rem - r.remaining) rest
          (⟨r.orderId, r.price, r.remaining⟩ :: res.1, res.2)
        else
          ([⟨r.orderId, r.price, rem⟩], 0,
           { r with remaining := r.remaining - rem } :: rest)
      else ([], rem, r :: rest)

/-- Total quantity of the given maker-side trades. -/
def sumQty (ts : List MTrade) : Int :=
  (ts.map MTrade.qty).sum

/-- Total quantity traded against the resting order `oid` in `ts`. -/
def tradedAgainst (ts : List MTrade) (oid : String) : Int :=
  ((ts.filter (fun t => t.restingId == oid)).map MTrade.qty).sum

/-- Total remaining quantity of the entries of a book side that carry the
order id `oid`. -/
def remFor (l : List Resting) (oid : String) : Int :=
  ((l.filter (fun r => r.orderId == oid)).map Resting.remaining).sum

/-- Update one ledger row for the maker fills `ts`: a row gains the total
quantity traded against it; it becomes FILLED when exhausted and
PARTIALLY_FILLED otherwise; uninvolved rows are untouched. -/
def bumpOrder (ts : List MTrade) (o : LOrder) : LOrder :=
  let q := tradedAgainst ts o.orderId
  if q = 0 then o
  else
    { o with
      filled := o.filled + q
      status := if o.quantity ≤ o.filled + q then OrderStatus.filled
                else OrderStatus.partlyFilled }

/-- Apply the maker fills of one matching pass to every ledger row. -/
def applyMakerFills (ts : List MTrade) (orders : List LOrder) : List LOrder :=
  orders.map (bumpOrder ts)

/-- Build the persisted trade row of one maker trade: the deterministic
trade id is seeded from the incoming order's id and a per-shard counter
(rules.md §6, "deterministic per order"); the buy/sell legs follow the
incoming side; the timestamp is the incoming order's `acceptedAt`. -/
def mkTradeRec (inc : IncOrder) (n : Nat) (t : MTrade) : TradeRec :=
  { tradeId := "TRADE#" ++ inc.orderId ++ "#" ++ toString n
    buyOrderId := match inc.side with
      | Side.buy => inc.orderId
      | Side.sell => t.restingId
    sellOrderId := match inc.side with
      | Side.buy => t.restingId
      | Side.sell => inc.orderId
    price := t.price
    quantity := t.qty
    timestamp := inc.acceptedAt }

/-- Persist the trades of one matching pass, numbering them from `n`. -/
def mkTradeRecs (inc : IncOrder) : Nat → List MTrade → List TradeRec
  | _, [] => []
  | n, t :: ts => mkTradeRec inc n t :: mkTradeRecs inc (n + 1) ts

/-- The book side an incoming order matches against. -/
def oppBook (side : Side) (s : ShardState) : List Resting :=
  match side with
  | Side.buy => s.asks
  | Side.sell => s.bids

/-- The book side an incoming order would rest on. -/
def sameBook (side : Side) (s : ShardState) : List Resting :=
  match side with
  | Side.buy => s.bids
  | Side.sell => s.asks

/-- Write back the two book sides around an incoming order's side: `same`
is the side the order would rest on, `opp` the side it matched against. -/
def setBooks (side : Side) (same opp : List Resting) (s : ShardState) : ShardState :=
  match side with
  | Side.buy => { s with bids := same, asks := opp }
  | Side.sell => { s with asks := same, bids := opp }

/-- Status of the incoming order after its matching pass left `rem`
unfilled out of `quantity`. -/
def incomingStatus (tif : Tif) (quantity rem : Int) : OrderStatus :=
  if rem = 0 then OrderStatus.filled
  else match tif with
    | Tif.ioc => OrderStatus.cancelled
    | Tif.gtc =>
        if 0 < quantity - rem then OrderStatus.partlyFilled else OrderStatus.opened

/-- Modelled from the spec (§4.3 step 1, rules.md §6): handle
`OrderAccepted`. A redelivered order id is skipped (idempotent handler,
"detect via orderId"). Otherwise the order matches against the opposite
book; the trades are persisted; the maker rows and the incoming row update
their status/filledQuantity; an unfilled GTC remainder rests in price-time
position, an unfilled IOC remainder is cancelled. -/
def acceptOrder (inc : IncOrder) (s : ShardState) : ShardState :=
  if s.orders.any (fun o => o.orderId == inc.orderId) then s
  else
    let mres := matchLoop inc.side inc.price inc.quantity (oppBook inc.side s)
    let ts := mres.1
    let rem := mres.2.1
    let opp := mres.2.2
    let incRow : LOrder :=
      ⟨inc.orderId, inc.side, inc.quantity, inc.price, inc.timeInForce,
       inc.acceptedAt, incomingStatus inc.timeInForce inc.quantity rem,
       inc.quantity - rem⟩
    let same :=
      if 0 < rem ∧ inc.timeInForce = Tif.gtc then
        List.orderedInsert (bookLe inc.side)
          ⟨inc.orderId, inc.price, inc.acceptedAt, rem⟩ (sameBook inc.side s)
      else sameBook inc.side s
    setBooks inc.side same opp
      { s with
        orders := incRow :: applyMakerFills ts s.orders
        trades := s.trades ++ mkTradeRecs inc s.tradeCount ts
        tradeCount := s.tradeCount + ts.length }

/-- Result the cancel handler reports to the caller. -/
inductive CancelResult where
  | success
  | notFound
  | alreadyTerminal
deriving Repr, DecidableEq

/-- Modelled from the spec (§6 cancel, §5 cancellation): cancel an order by
id — success when the order exists and is still open (its status becomes
CANCELLED and it leaves the book), not-found when unknown,
already-terminal otherwise. Trades and fill quantities are untouched. -/
def cancelOrder (oid : String) (s : ShardState) : ShardState × CancelResult :=
  match s.orders.find? (fun o => o.orderId == oid) with
  | none => (s, CancelResult.notFound)
  | some o =>
      if o.status.isOpen then
        ({ s with
            orders := s.orders.map (fun p =>
              if p.orderId == oid then { p with status := OrderStatus.cancelled } else p)
            bids := s.bids.filter (fun r => ¬ r.orderId == oid)
            asks := s.asks.filter (fun r => ¬ r.orderId == oid) },
         CancelResult.success)
      else (s, CancelResult.alreadyTerminal)

/-- Schema check (spec §4.3 failure semantics): an accepted order must carry
positive quantity and price. -/
def wellFormed : MEvent → Bool
  | MEvent.accepted _ inc => decide (0 < inc.quantity) && decide (0 < inc.price)
  | MEvent.cancelled _ _ => true

/-- Modelled from the spec: consume one event. A sequence number at or below
the last applied one is a redelivery and is skipped (last-applied-event
marker); a malformed event is dead-lettered, never stalling the shard;
otherwise the matching handler runs. -/
def processEvent (s : ShardState) (e : MEvent) : ShardState :=
  if e.seq ≤ s.lastSeq then s
  else if ¬ wellFormed e = true then
    { s with deadLetter := s.deadLetter ++ [e], lastSeq := e.seq }
  else
    let s1 :=
      match e with
      | MEvent.accepted _ inc => acceptOrder inc s
      | MEvent.cancelled _ oid => (cancelOrder oid s).1
    { s1 with lastSeq := e.seq }

/-- Run a matching shard from fresh state over a delivered event sequence. -/
def runShard (es : List MEvent) : ShardState :=
  es.foldl processEvent shard0

/-- The logical (deduplicated) event sequence a consumer starting from
last-applied marker `last` actually applies. -/
def dedupeStream : Nat → List MEvent → List MEvent
  | _, [] => []
  | last, e :: es =>
      if e.seq ≤ last then dedupeStream last es
      else e :: dedupeStream e.seq es

/-- Sum of the quantities of all trades whose buy or sell leg is `oid`. -/
def tradeSum (trades : List TradeRec) (oid : String) : Int :=
  ((trades.filter (fun t => t.buyOrderId == oid || t.sellOrderId == oid)).map
    TradeRec.quantity).sum

/-- Everything the engine maintains about a shard state: unique ledger ids,
unique book ids, book entries backed by open ledger rows with matching
remaining quantity, fill bounds, fill accounting against the trade list,
trade legs referencing ledger rows, and price-time-sorted book sides. -/
structure ShardInv (s : ShardState) : Prop where
  ordersNodup : (s.orders.map LOrder.orderId).Nodup
  bookNodup : ((s.bids ++ s.asks).map Resting.orderId).Nodup
  bookOrders : ∀ r ∈ s.bids ++ s.asks, ∃ o ∈ s.orders,
    o.orderId = r.orderId ∧ r.remaining = o.quantity - o.filled ∧ 0 < r.remaining
  fill_nonneg : ∀ o ∈ s.orders, 0 ≤ o.filled
  fill_le : ∀ o ∈ s.orders, o.filled ≤ o.quantity
  fill_eq : ∀ o ∈ s.orders, o.filled = tradeSum s.trades o.orderId
  trade_ids : ∀ t ∈ s.trades,
    t.buyOrderId ∈ s.orders.map LOrder.orderId ∧
    t.sellOrderId ∈ s.orders.map LOrder.orderId ∧
    t.buyOrderId ≠ t.sellOrderId
  bidsSorted : List.Pairwise (bookLe Side.buy) s.bids
  asksSorted : List.Pairwise (bookLe Side.sell) s.asks

/-! ## Part 4 — the reconciliation pass (modelled from the spec)

The Reconciliation Service is not present under `src/`; the definitions are
modelled from spec §4.5 and rules.md §7. -/

/-- Modelled from the spec: one trade/order row of a region's ledger as seen
by reconciliation — never deleted, only flagged. -/
structure RegionRow where
  rowId : String
  conflicted : Bool
  authoritative : Bool
deriving Repr, DecidableEq

/-- Modelled from the spec: reconciliation state after a partition healed —
the leader region's rows, the follower region's rows, the appended
`Reconciled` compensation events (one entry per conflict pair), and the
processed-conflict markers used for dedupe. -/
structure ReconState where
  leaderRows : List RegionRow
  followerRows : List RegionRow
  compensations : List String
  processedMarkers : List String
deriving Repr, DecidableEq

/-- Flag every row of the pair `conflicted := true`. -/
def markConflicted (rows : List RegionRow) (rid : String) : List RegionRow :=
  rows.map (fun r => if r.rowId == rid then { r with conflicted := true } else r)

/-- Mark every row of the pair authoritative. -/
def markAuthoritative (rows : List RegionRow) (rid : String) : List RegionRow :=
  rows.map (fun r => if r.rowId == rid then { r with authoritative := true } else r)

/-- Modelled from the spec (§4.5): resolve one detected conflict pair — a
pair whose processed-conflict marker exists is a no-op (dedupe); otherwise
the leader row is marked authoritative, the follower row is flagged
`conflicted=true` (no row is deleted), exactly one compensating `Reconciled`
event is appended, and the marker is recorded. -/
def reconcilePair (s : ReconState) (pairId : String) : ReconState :=
  if s.processedMarkers.contains pairId then s
  else
    { leaderRows := markAuthoritative s.leaderRows pairId
      followerRows := markConflicted s.followerRows pairId
      compensations := s.compensations ++ [pairId]
      processedMarkers := pairId :: s.processedMarkers }

/-- One reconciliation pass resolves the detected conflict pairs in order. -/
def reconcilePass (s : ReconState) (conflicts : List String) : ReconState :=
  conflicts.foldl reconcilePair s

/-! ## Concrete engine inputs used by closed theorems -/

/-- Resting SELL 5@100 accepted at T1 = 1 (spec §8 example scenario). -/
def sellT1 : IncOrder := ⟨"S1", Side.sell, 5, 100, Tif.gtc, 1⟩

/-- Resting SELL 5@100 accepted at T2 = 2 > T1. -/
def sellT2 : IncOrder := ⟨"S2", Side.sell, 5, 100, Tif.gtc, 2⟩

/-- Incoming BUY 8@100. -/
def buyB1 : IncOrder := ⟨"B1", Side.buy, 8, 100, Tif.gtc, 3⟩

/-- The §8 price-time-priority scenario as a delivered event sequence. -/
def c5Events : List MEvent :=
  [MEvent.accepted 1 sellT1, MEvent.accepted 2 sellT2, MEvent.accepted 3 buyB1]

/-- A single accepted order, for witnesses over reachable states. -/
def c3Events : List MEvent := [MEvent.accepted 1 buyB1]

/-- The ledger row the engine holds after consuming `c3Events`. -/
def c3Row : LOrder :=
  ⟨"B1", Side.buy, 8, 100, Tif.gtc, 3, OrderStatus.opened, 0⟩

/-- A reconciliation state with one conflicting trade pair `T1` present in
both regions, nothing flagged or compensated yet. -/
def recon0 : ReconState :=
  { leaderRows := [⟨"T1", false, false⟩]
    followerRows := [⟨"T1", false, false⟩]
    compensations := []
    processedMarkers := [] }

/-! ### Helper lemmas about the intake path -/

theorem string_append_cancel {p a b : String} (h : p ++ a = p ++ b) : a = b := by
  have hd : (p ++ a).data = (p ++ b).data := by rw [h]
  simp only [String.data_append] at hd
  exact String.ext (List.append_cancel_left hd)

theorem orderPk_inj {c1 c2 : SubmitOrderCmd} (h : orderPk c1 = orderPk c2) :
    c1.orderId = c2.orderId :=
  string_append_cancel h

theorem ddbConditionalPut_fresh (item : OrderItem) (st : AwsState)
    (h : (st.ordersTable.any fun it => it.pk == item.pk) = false) :
    ddbConditionalPut item st =
      Except.ok { st with ordersTable := st.ordersTable ++ [item] } := by
  unfold ddbConditionalPut
  rw [h]
  simp

theorem sqsSendFifo_ordersTable (g d : String) (b : MsgBody) (st : AwsState) :
    (sqsSendFifo g d b st).ordersTable = st.ordersTable := by
  unfold sqsSendFifo
  split <;> rfl

theorem submitOrder_ok_of_fresh (cmd : SubmitOrderCmd) (st : AwsState)
    (hfresh : (st.ordersTable.any fun it => it.pk == orderPk cmd) = false) :
    ∃ st1, submitOrder cmd st =
      (st1, [IntakeEffect.ddbPut (orderPk cmd) "ACCEPTED",
             IntakeEffect.sqsPublish (compoundIk cmd.clientId cmd.idempotencyKey)],
       Except.ok ()) ∧
    st1.ordersTable = st.ordersTable ++
      [{ pk := orderPk cmd, sk := orderPk cmd, clientId := cmd.clientId,
         side := cmd.side, qty := cmd.qty, price := cmd.price,
         status := "ACCEPTED",
         idempotencyKey := compoundIk cmd.clientId cmd.idempotencyKey,
         createdAt := st.now }] := by
  simp only [submitOrder]
  rw [ddbConditionalPut_fresh _ _ hfresh]
  exact ⟨_, rfl, sqsSendFifo_ordersTable _ _ _ _⟩

theorem ddbConditionalPut_dup (item : OrderItem) (st : AwsState)
    (h : (st.ordersTable.any fun it => it.pk == item.pk) = true) :
    ddbConditionalPut item st = Except.error DdbError.conditionalCheckFailed := by
  unfold ddbConditionalPut
  rw [h]
  simp

theorem submitOrder_error_of_dup (cmd : SubmitOrderCmd) (st : AwsState)
    (h : (st.ordersTable.any fun it => it.pk == orderPk cmd) = true) :
    submitOrder cmd st = (st, [], Except.error DdbError.conditionalCheckFailed) := by
  simp only [submitOrder]
  rw [ddbConditionalPut_dup _ _ h]

theorem countPk_append (l1 l2 : List OrderItem) (pk : String) :
    countPk (l1 ++ l2) pk = countPk l1 pk + countPk l2 pk := by
  simp [countPk, List.filter_append]

theorem countPk_eq_zero {l : List OrderItem} {pk : String}
    (h : (l.any fun it => it.pk == pk) = false) : countPk l pk = 0 := by
  simp only [countPk, List.length_eq_zero, List.filter_eq_nil_iff]
  intro it hit
  simpa using List.any_eq_false.mp h it hit

theorem countPk_singleton (item : OrderItem) (pk : String) :
    countPk [item] pk = if item.pk = pk then 1 else 0 := by
  by_cases h : item.pk = pk <;> simp [countPk, h]

theorem validateSubmit_eq_none_iff (r : RawSubmit) :
    validateSubmit r = none ↔
      ((r.side = "BUY" ∨ r.side = "SELL") ∧ 0 < r.quantity ∧ 0 < r.price ∧
       (r.timeInForce = "GTC" ∨ r.timeInForce = "IOC")) := by
  unfold validateSubmit
  split_ifs with h1 h2 h3 h4 <;> simp_all

theorem gatekeeperSubmit_of_invalid (r : RawSubmit) (newOrderId : String)
    (gw : GatewayState) (e : ValidationError) (h : validateSubmit r = some e) :
    gatekeeperSubmit r newOrderId gw = (gw, SubmitOutcome.rejected e) := by
  simp only [gatekeeperSubmit, h]

theorem gatekeeperSubmit_not_rejected_of_valid (r : RawSubmit) (newOrderId : String)
    (gw : GatewayState) (h : validateSubmit r = none) :
    ∀ e, (gatekeeperSubmit r newOrderId gw).2 ≠ SubmitOutcome.rejected e := by
  intro e
  simp only [gatekeeperSubmit, h]
  cases hl : idemLookup gw.idem (compoundIk r.clientId r.idempotencyKey) <;> simp

/-! ## Claim theorems for the intake path -/

/-- Claim C1 (code bug, evaluated at the failing input): two `submitOrder`
calls sharing `(clientId, idempotencyKey) = ("c-1", "ik-1")` but carrying
regenerated order ids `"o-1a"` / `"o-1b"` both succeed — the second call
does not report a duplicate — and two Order items end up persisted, while
the FIFO dedupe key leaves exactly one `OrderAccepted` message.  This
contradicts the claim (and the repository's own Golden Invariant 1 in
`src/aiprompts/rules.md`) that exactly one Order is persisted and the
second call returns the existing orderId with a "duplicate" signal. -/
theorem tulip_C1_code_bug :
    (submitOrder c1CmdA awsEmpty).2.2 = Except.ok () ∧
    (submitOrder c1CmdB (submitOrder c1CmdA awsEmpty).1).2.2 = Except.ok () ∧
    (submitOrder c1CmdB (submitOrder c1CmdA awsEmpty).1).1.ordersTable.length = 2 ∧
    countAccepted (submitOrder c1CmdB (submitOrder c1CmdA awsEmpty).1).1
      (compoundIk "c-1" "ik-1") = 1 :=
  ⟨rfl, rfl, rfl, rfl⟩

/-- Claim C2: the duplicate guard of `submitOrder` conditions only on
`pk = ORDER#<orderId>`: two submissions sharing `(clientId,
idempotencyKey)` but with distinct `orderId`s both pass the conditional put
and two distinct Order items are persisted. -/
theorem tulip_C2_pk_only_guard (st : AwsState) (c1 c2 : SubmitOrderCmd)
    (hclient : c1.clientId = c2.clientId)
    (hik : c1.idempotencyKey = c2.idempotencyKey)
    (hoid : c1.orderId ≠ c2.orderId)
    (h1 : (st.ordersTable.any fun it => it.pk == orderPk c1) = false)
    (h2 : (st.ordersTable.any fun it => it.pk == orderPk c2) = false) :
    ∃ st1 st2 tr1 tr2,
      submitOrder c1 st = (st1, tr1, Except.ok ()) ∧
      submitOrder c2 st1 = (st2, tr2, Except.ok ()) ∧
      orderPk c1 ≠ orderPk c2 ∧
      countPk st2.ordersTable (orderPk c1) = 1 ∧
      countPk st2.ordersTable (orderPk c2) = 1 := by
  have hpkne : orderPk c1 ≠ orderPk c2 := fun h => hoid (orderPk_inj h)
  obtain ⟨st1, heq1, htab1⟩ := submitOrder_ok_of_fresh c1 st h1
  have h2fresh : (st1.ordersTable.any fun it => it.pk == orderPk c2) = false := by
    rw [htab1]
    simp only [List.any_append, List.any_cons, List.any_nil, Bool.or_false,
      Bool.or_eq_false_iff]
    exact ⟨h2, by simpa using hpkne⟩
  obtain ⟨st2, heq2, htab2⟩ := submitOrder_ok_of_fresh c2 st1 h2fresh
  refine ⟨st1, st2, _, _, heq1, heq2, hpkne, ?_, ?_⟩
  · rw [htab2, htab1, countPk_append, countPk_append, countPk_singleton,
      countPk_singleton, countPk_eq_zero h1]
    simp [hpkne.symm]
  · rw [htab2, htab1, countPk_append, countPk_append, countPk_singleton,
      countPk_singleton, countPk_eq_zero h2]
    simp [hpkne]

/-- Witness for C2 at a concrete input. -/
theorem tulip_C2_pk_only_guard_witness :
    ∃ st1 st2 tr1 tr2,
      submitOrder c1CmdA awsEmpty = (st1, tr1, Except.ok ()) ∧
      submitOrder c1CmdB st1 = (st2, tr2, Except.ok ()) ∧
      orderPk c1CmdA ≠ orderPk c1CmdB ∧
      countPk st2.ordersTable (orderPk c1CmdA) = 1 ∧
      countPk st2.ordersTable (orderPk c1CmdB) = 1 :=
  tulip_C2_pk_only_guard awsEmpty c1CmdA c1CmdB rfl rfl (by decide) rfl rfl

/-- Claim C7 (counterexample to the claim as stated): the order `submitOrder`
durably persists carries `status = "ACCEPTED"`, not `status = "PENDING"`. -/
theorem tulip_C7_status_counterexample :
    (submitOrder c7Cmd awsEmpty).1.ordersTable.map OrderItem.status = ["ACCEPTED"] ∧
    (submitOrder c7Cmd awsEmpty).1.ordersTable.map OrderItem.status ≠ ["PENDING"] :=
  ⟨rfl, by decide⟩

/-- Claim C7 (amended): in `submitOrder` the conditional insert and the durable
order write are one conditional put persisting `status = "ACCEPTED"` (not
PENDING); the call succeeds exactly when no item with this `pk` exists; on
success the side effects are, in order, the durable write and then the
`OrderAccepted` publish with dedupe key equal to the compound
`(clientId, idempotencyKey)` key — the publish never precedes the durable
write — and when the conditional check fails nothing is persisted or
published. -/
theorem tulip_C7_amended (cmd : SubmitOrderCmd) (st : AwsState) :
    ((submitOrder cmd st).2.2 = Except.ok () ↔
      (st.ordersTable.any fun it => it.pk == orderPk cmd) = false) ∧
    ((submitOrder cmd st).2.2 = Except.ok () →
      (submitOrder cmd st).2.1 =
        [IntakeEffect.ddbPut (orderPk cmd) "ACCEPTED",
         IntakeEffect.sqsPublish (compoundIk cmd.clientId cmd.idempotencyKey)] ∧
      countPk (submitOrder cmd st).1.ordersTable (orderPk cmd) =
        countPk st.ordersTable (orderPk cmd) + 1) ∧
    ((submitOrder cmd st).2.2 ≠ Except.ok () →
      (submitOrder cmd st).1 = st ∧ (submitOrder cmd st).2.1 = []) := by
  by_cases h : (st.ordersTable.any fun it => it.pk == orderPk cmd) = true
  · rw [submitOrder_error_of_dup cmd st h]
    refine ⟨by simp [h], fun hok => absurd hok (by simp), fun _ => ⟨rfl, rfl⟩⟩
  · have h' : (st.ordersTable.any fun it => it.pk == orderPk cmd) = false := by
      simpa using h
    obtain ⟨st1, heq, htab⟩ := submitOrder_ok_of_fresh cmd st h'
    rw [heq]
    refine ⟨by simp [h'], fun _ => ⟨rfl, ?_⟩, fun hne => absurd rfl hne⟩
    rw [htab, countPk_append, countPk_singleton]
    simp

/-- Witness for the amended C7 at a concrete input. -/
theorem tulip_C7_amended_witness :
    (submitOrder c7Cmd awsEmpty).2.1 =
      [IntakeEffect.ddbPut (orderPk c7Cmd) "ACCEPTED",
       IntakeEffect.sqsPublish (compoundIk "c-7" "ik-7")] :=
  (((tulip_C7_amended c7Cmd awsEmpty).2.1) rfl).1

/-- Claim C8: the submit handler validates its input — side BUY/SELL,
quantity > 0, price > 0, timeInForce GTC/IOC — a malformed request is
rejected with a `ValidationError` surfaced to the caller, and a rejected
request changes no durable state (no order persisted, no event
published). -/
theorem tulip_C8_validation (r : RawSubmit) (newOrderId : String) (gw : GatewayState) :
    ((∃ e, (gatekeeperSubmit r newOrderId gw).2 = SubmitOutcome.rejected e) ↔
      ¬ ((r.side = "BUY" ∨ r.side = "SELL") ∧ 0 < r.quantity ∧ 0 < r.price ∧
         (r.timeInForce = "GTC" ∨ r.timeInForce = "IOC"))) ∧
    (∀ e, (gatekeeperSubmit r newOrderId gw).2 = SubmitOutcome.rejected e →
      (gatekeeperSubmit r newOrderId gw).1 = gw) := by
  constructor
  · constructor
    · rintro ⟨e, he⟩ hvalid
      have hnone : validateSubmit r = none := (validateSubmit_eq_none_iff r).mpr hvalid
      exact gatekeeperSubmit_not_rejected_of_valid r newOrderId gw hnone e he
    · intro hinvalid
      cases hv : validateSubmit r with
      | none => exact absurd ((validateSubmit_eq_none_iff r).mp hv) hinvalid
      | some e =>
          exact ⟨e, by rw [gatekeeperSubmit_of_invalid r newOrderId gw e hv]⟩
  · intro e he
    cases hv : validateSubmit r with
    | none => exact absurd he (gatekeeperSubmit_not_rejected_of_valid r newOrderId gw hv e)
    | some e2 => rw [gatekeeperSubmit_of_invalid r newOrderId gw e2 hv]

/-- Witness for C8: the malformed request (`quantity = -5`) is rejected and
leaves the gateway state untouched. -/
theorem tulip_C8_validation_witness :
    (∃ e, (gatekeeperSubmit c8BadRaw "o-8" gwEmpty).2 = SubmitOutcome.rejected e) ∧
    (gatekeeperSubmit c8BadRaw "o-8" gwEmpty).1 = gwEmpty := by
  have h := tulip_C8_validation c8BadRaw "o-8" gwEmpty
  have hrej : (gatekeeperSubmit c8BadRaw "o-8" gwEmpty).2 =
      SubmitOutcome.rejected ValidationError.badQuantity := rfl
  exact ⟨⟨ValidationError.badQuantity, hrej⟩, h.2 ValidationError.badQuantity hrej⟩

/-! ### Lemmas about the matching loop -/

theorem tradedAgainst_nil (oid : String) : tradedAgainst [] oid = 0 := rfl

theorem tradedAgainst_cons (t : MTrade) (ts : List MTrade) (oid : String) :
    tradedAgainst (t :: ts) oid =
      (if t.restingId = oid then t.qty else 0) + tradedAgainst ts oid := by
  by_cases h : t.restingId = oid <;> simp [tradedAgainst, List.filter_cons, h]

theorem tradedAgainst_eq_zero {ts : List MTrade} {oid : String}
    (h : ∀ t ∈ ts, t.restingId ≠ oid) : tradedAgainst ts oid = 0 := by
  induction ts with
  | nil => rfl
  | cons t ts ih =>
      rw [tradedAgainst_cons, if_neg (h t (List.mem_cons_self t ts)),
        ih (fun u hu => h u (List.mem_cons_of_mem t hu))]
      simp

theorem tradedAgainst_nonneg {ts : List MTrade} (oid : String)
    (h : ∀ t ∈ ts, 0 ≤ t.qty) : 0 ≤ tradedAgainst ts oid := by
  refine List.sum_nonneg ?_
  intro q hq
  obtain ⟨t, ht, rfl⟩ := List.mem_map.mp hq
  exact h t (List.mem_of_mem_filter ht)

theorem remFor_nil (oid : String) : remFor [] oid = 0 := rfl

theorem remFor_cons (r : Resting) (l : List Resting) (oid : String) :
    remFor (r :: l) oid = (if r.orderId = oid then r.remaining else 0) + remFor l oid := by
  by_cases h : r.orderId = oid <;> simp [remFor, List.filter_cons, h]

theorem remFor_eq_zero {l : List Resting} {oid : String}
    (h : oid ∉ l.map Resting.orderId) : remFor l oid = 0 := by
  induction l with
  | nil => rfl
  | cons r l ih =>
      rw [remFor_cons]
      have h1 : r.orderId ≠ oid := fun he => h (by simp [← he])
      have h2 : oid ∉ l.map Resting.orderId := fun he => h (by simp [he])
      rw [if_neg h1, ih h2]
      simp

theorem remFor_nodup : ∀ (l : List Resting) (x : Resting),
    (l.map Resting.orderId).Nodup → x ∈ l → remFor l x.orderId = x.remaining := by
  intro l
  induction l with
  | nil => intro x _ hx; cases hx
  | cons r l ih =>
      intro x hnd hx
      have hnd' : r.orderId ∉ l.map Resting.orderId ∧ (l.map Resting.orderId).Nodup := by
        rw [List.map_cons, List.nodup_cons] at hnd
        exact hnd
      rcases List.mem_cons.mp hx with rfl | hx2
      · rw [remFor_cons, if_pos rfl, remFor_eq_zero hnd'.1]
        simp
      · have hne : r.orderId ≠ x.orderId := fun he =>
          hnd'.1 (by rw [he]; exact List.mem_map_of_mem Resting.orderId hx2)
        rw [remFor_cons, if_neg hne, ih x hnd'.2 hx2]
        simp

theorem remFor_nonneg {l : List Resting} (oid : String)
    (h : ∀ r ∈ l, 0 ≤ r.remaining) : 0 ≤ remFor l oid := by
  refine List.sum_nonneg ?_
  intro q hq
  obtain ⟨r, hr, rfl⟩ := List.mem_map.mp hq
  exact h r (List.mem_of_mem_filter hr)

theorem matchLoop_sum (side : Side) (p : Int) :
    ∀ (rem : Int) (opp : List Resting),
      sumQty (matchLoop side p rem opp).1 + (matchLoop side p rem opp).2.1 = rem := by
  intro rem opp
  induction opp generalizing rem with
  | nil => simp [matchLoop, sumQty]
  | cons r rest ih =>
      simp only [matchLoop]
      by_cases hc : 0 < rem ∧ crossesB side p r.price = true
      · rw [if_pos hc]
        by_cases hq : r.remaining ≤ rem
        · rw [if_pos hq]
          have h2 := ih (rem - r.remaining)
          simp only [sumQty, List.map_cons, List.sum_cons] at h2 ⊢
          omega
        · rw [if_neg hq]
          simp [sumQty]
      · rw [if_neg hc]
        simp [sumQty]

theorem matchLoop_rem_nonneg (side : Side) (p : Int) :
    ∀ (rem : Int) (opp : List Resting), 0 ≤ rem →
      0 ≤ (matchLoop side p rem opp).2.1 := by
  intro rem opp
  induction opp generalizing rem with
  | nil => simp [matchLoop]
  | cons r rest ih =>
      intro h0
      simp only [matchLoop]
      by_cases hc : 0 < rem ∧ crossesB side p r.price = true
      · rw [if_pos hc]
        by_cases hq : r.remaining ≤ rem
        · rw [if_pos hq]
          exact ih (rem - r.remaining) (by omega)
        · rw [if_neg hq]
      · rw [if_neg hc]
        simpa using h0

theorem matchLoop_fifo (side : Side) (p : Int) :
    ∀ (rem : Int) (opp : List Resting),
      (matchLoop side p rem opp).1.map MTrade.restingId =
        (opp.take (matchLoop side p rem opp).1.length).map Resting.orderId := by
  intro rem opp
  induction opp generalizing rem with
  | nil => simp [matchLoop]
  | cons r rest ih =>
      simp only [matchLoop]
      by_cases hc : 0 < rem ∧ crossesB side p r.price = true
      · rw [if_pos hc]
        by_cases hq : r.remaining ≤ rem
        · rw [if_pos hq]
          simpa using ih (rem - r.remaining)
        · rw [if_neg hq]
          simp
      · rw [if_neg hc]
        simp

theorem matchLoop_conserve (side : Side) (p : Int) :
    ∀ (rem : Int) (opp : List Resting) (oid : String),
      tradedAgainst (matchLoop side p rem opp).1 oid +
        remFor (matchLoop side p rem opp).2.2 oid = remFor opp oid := by
  intro rem opp
  induction opp generalizing rem with
  | nil => simp [matchLoop, tradedAgainst, remFor]
  | cons r rest ih =>
      intro oid
      simp only [matchLoop]
      by_cases hc : 0 < rem ∧ crossesB side p r.price = true
      · rw [if_pos hc]
        by_cases hq : r.remaining ≤ rem
        · rw [if_pos hq]
          have h2 := ih (rem - r.remaining) oid
          simp only [tradedAgainst_cons, remFor_cons]
          split_ifs <;> omega
        · rw [if_neg hq]
          simp only [tradedAgainst_cons, tradedAgainst_nil, remFor_cons]
          split_ifs <;> omega
      · rw [if_neg hc]
        simp [tradedAgainst]

theorem matchLoop_suffix (side : Side) (p : Int) :
    ∀ (rem : Int) (opp : List Resting),
      ((matchLoop side p rem opp).2.2.map Resting.orderId) <:+
        (opp.map Resting.orderId) := by
  intro rem opp
  induction opp generalizing rem with
  | nil => simp [matchLoop]
  | cons r rest ih =>
      simp only [matchLoop]
      by_cases hc : 0 < rem ∧ crossesB side p r.price = true
      · rw [if_pos hc]
        by_cases hq : r.remaining ≤ rem
        · rw [if_pos hq]
          exact (ih (rem - r.remaining)).trans (List.suffix_cons _ _)
        · rw [if_neg hq]
          simp [List.suffix_refl]
      · rw [if_neg hc]

theorem matchLoop_qty_pos (side : Side) (p : Int) :
    ∀ (rem : Int) (opp : List Resting), 0 ≤ rem →
      (∀ r ∈ opp, 0 < r.remaining) →
      ∀ t ∈ (matchLoop side p rem opp).1, 0 < t.qty := by
  intro rem opp
  induction opp generalizing rem with
  | nil => simp [matchLoop]
  | cons r rest ih =>
      intro h0 hpos
      simp only [matchLoop]
      by_cases hc : 0 < rem ∧ crossesB side p r.price = true
      · rw [if_pos hc]
        by_cases hq : r.remaining ≤ rem
        · rw [if_pos hq]
          intro t ht
          rcases List.mem_cons.mp ht with rfl | ht2
          · exact hpos r (List.mem_cons_self r rest)
          · exact ih (rem - r.remaining) (by omega)
              (fun x hx => hpos x (List.mem_cons_of_mem r hx)) t ht2
        · rw [if_neg hq]
          intro t ht
          rcases List.mem_cons.mp ht with rfl | ht2
          · exact hc.1
          · cases ht2
      · rw [if_neg hc]
        simp

theorem matchLoop_rest_pos (side : Side) (p : Int) :
    ∀ (rem : Int) (opp : List Resting),
      (∀ r ∈ opp, 0 < r.remaining) →
      ∀ r ∈ (matchLoop side p rem opp).2.2, 0 < r.remaining := by
  intro rem opp
  induction opp generalizing rem with
  | nil => simp [matchLoop]
  | cons r rest ih =>
      intro hpos
      simp only [matchLoop]
      by_cases hc : 0 < rem ∧ crossesB side p r.price = true
      · rw [if_pos hc]
        by_cases hq : r.remaining ≤ rem
        · rw [if_pos hq]
          exact ih (rem - r.remaining) (fun x hx => hpos x (List.mem_cons_of_mem r hx))
        · rw [if_neg hq]
          intro x hx
          rcases List.mem_cons.mp hx with rfl | hx2
          · show 0 < r.remaining - rem
            omega
          · exact hpos x (List.mem_cons_of_mem r hx2)
      · rw [if_neg hc]
        exact hpos

theorem matchLoop_maker (side : Side) (p : Int) :
    ∀ (rem : Int) (opp : List Resting),
      ∀ t ∈ (matchLoop side p rem opp).1,
        ∃ r ∈ opp, t.restingId = r.orderId ∧ t.price = r.price ∧
          crossesB side p r.price = true := by
  intro rem opp
  induction opp generalizing rem with
  | nil => simp [matchLoop]
  | cons r rest ih =>
      simp only [matchLoop]
      by_cases hc : 0 < rem ∧ crossesB side p r.price = true
      · rw [if_pos hc]
        by_cases hq : r.remaining ≤ rem
        · rw [if_pos hq]
          intro t ht
          rcases List.mem_cons.mp ht with rfl | ht2
          · exact ⟨r, List.mem_cons_self r rest, rfl, rfl, hc.2⟩
          · obtain ⟨x, hx, h1, h2, h3⟩ := ih (rem - r.remaining) t ht2
            exact ⟨x, List.mem_cons_of_mem r hx, h1, h2, h3⟩
        · rw [if_neg hq]
          intro t ht
          rcases List.mem_cons.mp ht with rfl | ht2
          · exact ⟨r, List.mem_cons_self r rest, rfl, rfl, hc.2⟩
          · cases ht2
      · rw [if_neg hc]
        simp

/-! ### Book-order and fill-application lemmas -/

theorem priceKey_set_remaining (side : Side) (r : Resting) (m : Int) :
    priceKey side { r with remaining := m } = priceKey side r := by
  cases side <;> rfl

theorem bookLe_set_remaining_left (side : Side) (r x : Resting) (m : Int) :
    bookLe side { r with remaining := m } x ↔ bookLe side r x := by
  unfold bookLe
  rw [priceKey_set_remaining]

theorem matchLoop_sorted (side : Side) (p : Int) (sideR : Side) :
    ∀ (rem : Int) (opp : List Resting), List.Pairwise (bookLe sideR) opp →
      List.Pairwise (bookLe sideR) (matchLoop side p rem opp).2.2 := by
  intro rem opp
  induction opp generalizing rem with
  | nil => intro _; simp [matchLoop]
  | cons r rest ih =>
      intro hp
      simp only [matchLoop]
      by_cases hc : 0 < rem ∧ crossesB side p r.price = true
      · rw [if_pos hc]
        by_cases hq : r.remaining ≤ rem
        · rw [if_pos hq]
          exact ih (rem - r.remaining) (List.Pairwise.of_cons hp)
        · rw [if_neg hq]
          refine List.Pairwise.cons ?_ (List.Pairwise.of_cons hp)
          intro x hx
          exact (bookLe_set_remaining_left sideR r x (r.remaining - rem)).mpr
            ((List.pairwise_cons.mp hp).1 x hx)
      · rw [if_neg hc]
        exact hp

theorem bumpOrder_orderId (ts : List MTrade) (o : LOrder) :
    (bumpOrder ts o).orderId = o.orderId := by
  simp only [bumpOrder]
  split_ifs <;> rfl

theorem bumpOrder_quantity (ts : List MTrade) (o : LOrder) :
    (bumpOrder ts o).quantity = o.quantity := by
  simp only [bumpOrder]
  split_ifs <;> rfl

theorem bumpOrder_filled (ts : List MTrade) (o : LOrder) :
    (bumpOrder ts o).filled = o.filled + tradedAgainst ts o.orderId := by
  simp only [bumpOrder]
  split_ifs with h h2
  · rw [h]
    simp
  · rfl
  · rfl

theorem applyMakerFills_map_id (ts : List MTrade) (os : List LOrder) :
    (applyMakerFills ts os).map LOrder.orderId = os.map LOrder.orderId := by
  unfold applyMakerFills
  rw [List.map_map]
  exact List.map_congr_left (fun o _ => bumpOrder_orderId ts o)

theorem mem_applyMakerFills {ts : List MTrade} {os : List LOrder} {o2 : LOrder} :
    o2 ∈ applyMakerFills ts os ↔ ∃ o ∈ os, o2 = bumpOrder ts o := by
  unfold applyMakerFills
  rw [List.mem_map]
  constructor
  · rintro ⟨o, ho, rfl⟩
    exact ⟨o, ho, rfl⟩
  · rintro ⟨o, ho, rfl⟩
    exact ⟨o, ho, rfl⟩

theorem sumQty_nonneg {ts : List MTrade} (h : ∀ t ∈ ts, 0 ≤ t.qty) :
    0 ≤ sumQty ts := by
  refine List.sum_nonneg ?_
  intro q hq
  obtain ⟨t, ht, rfl⟩ := List.mem_map.mp hq
  exact h t ht

theorem nodup_key_unique {orders : List LOrder}
    (hnd : (orders.map LOrder.orderId).Nodup) {o o2 : LOrder}
    (h1 : o ∈ orders) (h2 : o2 ∈ orders) (he : o.orderId = o2.orderId) : o = o2 :=
  List.inj_on_of_nodup_map hnd h1 h2 he

/-! ### Trade-record lemmas -/

theorem tradeSum_append (l1 l2 : List TradeRec) (oid : String) :
    tradeSum (l1 ++ l2) oid = tradeSum l1 oid + tradeSum l2 oid := by
  simp [tradeSum, List.filter_append]

theorem tradeSum_cons (t : TradeRec) (ts : List TradeRec) (oid : String) :
    tradeSum (t :: ts) oid =
      (if (t.buyOrderId == oid || t.sellOrderId == oid) = true then t.quantity else 0) +
        tradeSum ts oid := by
  by_cases h : (t.buyOrderId == oid || t.sellOrderId == oid) = true <;>
    simp [tradeSum, List.filter_cons, h]

theorem tradeSum_eq_zero {ts : List TradeRec} {oid : String}
    (h : ∀ t ∈ ts, t.buyOrderId ≠ oid ∧ t.sellOrderId ≠ oid) : tradeSum ts oid = 0 := by
  have hf : ts.filter (fun t => t.buyOrderId == oid || t.sellOrderId == oid) = [] := by
    refine List.filter_eq_nil_iff.mpr ?_
    intro t ht
    simp [(h t ht).1, (h t ht).2]
  simp [tradeSum, hf]

theorem mkTradeRec_legs (inc : IncOrder) (n : Nat) (t : MTrade) :
    ((mkTradeRec inc n t).buyOrderId = inc.orderId ∧
     (mkTradeRec inc n t).sellOrderId = t.restingId) ∨
    ((mkTradeRec inc n t).buyOrderId = t.restingId ∧
     (mkTradeRec inc n t).sellOrderId = inc.orderId) := by
  cases h : inc.side <;> simp [mkTradeRec, h]

theorem mkTradeRec_quantity (inc : IncOrder) (n : Nat) (t : MTrade) :
    (mkTradeRec inc n t).quantity = t.qty := rfl

theorem tradeSum_mkTradeRecs_inc (inc : IncOrder) :
    ∀ (n : Nat) (ts : List MTrade),
      tradeSum (mkTradeRecs inc n ts) inc.orderId = sumQty ts := by
  intro n ts
  induction ts generalizing n with
  | nil => rfl
  | cons t ts ih =>
      simp only [mkTradeRecs]
      rw [tradeSum_cons]
      have hcond : ((mkTradeRec inc n t).buyOrderId == inc.orderId ||
          (mkTradeRec inc n t).sellOrderId == inc.orderId) = true := by
        rcases mkTradeRec_legs inc n t with ⟨h1, _⟩ | ⟨_, h2⟩
        · simp [h1]
        · simp [h2]
      rw [if_pos hcond, mkTradeRec_quantity, ih (n + 1)]
      simp [sumQty]

theorem tradeSum_mkTradeRecs_other (inc : IncOrder) (oid : String)
    (hne : oid ≠ inc.orderId) :
    ∀ (n : Nat) (ts : List MTrade),
      tradeSum (mkTradeRecs inc n ts) oid = tradedAgainst ts oid := by
  intro n ts
  induction ts generalizing n with
  | nil => rfl
  | cons t ts ih =>
      simp only [mkTradeRecs]
      rw [tradeSum_cons, tradedAgainst_cons]
      rcases mkTradeRec_legs inc n t with ⟨h1, h2⟩ | ⟨h1, h2⟩
      · by_cases hr : t.restingId = oid
        · rw [if_pos (by simp [h2, hr]), if_pos hr, mkTradeRec_quantity, ih (n + 1)]
        · rw [if_neg (by simp [h1, h2, Ne.symm hne, hr]), if_neg hr, ih (n + 1)]
      · by_cases hr : t.restingId = oid
        · rw [if_pos (by simp [h1, hr]), if_pos hr, mkTradeRec_quantity, ih (n + 1)]
        · rw [if_neg (by simp [h1, h2, Ne.symm hne, hr]), if_neg hr, ih (n + 1)]

theorem mkTradeRecs_ids (inc : IncOrder) :
    ∀ (n : Nat) (ts : List MTrade), ∀ tr ∈ mkTradeRecs inc n ts,
      ∃ t ∈ ts, (tr.buyOrderId = inc.orderId ∧ tr.sellOrderId = t.restingId) ∨
        (tr.buyOrderId = t.restingId ∧ tr.sellOrderId = inc.orderId) := by
  intro n ts
  induction ts generalizing n with
  | nil => simp [mkTradeRecs]
  | cons t ts ih =>
      simp only [mkTradeRecs]
      intro tr htr
      rcases List.mem_cons.mp htr with rfl | htr2
      · exact ⟨t, List.mem_cons_self t ts, mkTradeRec_legs inc n t⟩
      · obtain ⟨u, hu, hlegs⟩ := ih (n + 1) tr htr2
        exact ⟨u, List.mem_cons_of_mem t hu, hlegs⟩

/-! ### One matching pass: ledger and book facts -/

theorem tradedAgainst_matchLoop_zero (side : Side) (p rem : Int)
    (opp : List Resting) (oid : String) (h : oid ∉ opp.map Resting.orderId) :
    tradedAgainst (matchLoop side p rem opp).1 oid = 0 := by
  refine tradedAgainst_eq_zero ?_
  intro t ht heq
  obtain ⟨r, hr, h1, _, _⟩ := matchLoop_maker side p rem opp t ht
  exact h (heq ▸ h1 ▸ List.mem_map_of_mem Resting.orderId hr)

theorem bumpOrder_id_of_zero {ts : List MTrade} {o : LOrder}
    (h : tradedAgainst ts o.orderId = 0) : bumpOrder ts o = o := by
  simp only [bumpOrder]
  rw [if_pos h]

theorem step_opp_backing (inc : IncOrder) (orders : List LOrder) (opp0 : List Resting)
    (hordnd : (orders.map LOrder.orderId).Nodup)
    (hoppnd : (opp0.map Resting.orderId).Nodup)
    (hpos : ∀ r ∈ opp0, 0 < r.remaining)
    (hbacking : ∀ r ∈ opp0, ∃ o ∈ orders,
      o.orderId = r.orderId ∧ r.remaining = o.quantity - o.filled) :
    ∀ r2 ∈ (matchLoop inc.side inc.price inc.quantity opp0).2.2,
      ∃ o2 ∈ applyMakerFills (matchLoop inc.side inc.price inc.quantity opp0).1 orders,
        o2.orderId = r2.orderId ∧ r2.remaining = o2.quantity - o2.filled ∧
        0 < r2.remaining := by
  intro r2 hr2
  have hsuffix := matchLoop_suffix inc.side inc.price inc.quantity opp0
  have hidmem : r2.orderId ∈ opp0.map Resting.orderId :=
    hsuffix.subset (List.mem_map_of_mem Resting.orderId hr2)
  obtain ⟨r0, hr0, hr0id⟩ := List.mem_map.mp hidmem
  obtain ⟨o, ho, hoid, horem⟩ := hbacking r0 hr0
  refine ⟨bumpOrder (matchLoop inc.side inc.price inc.quantity opp0).1 o,
    mem_applyMakerFills.mpr ⟨o, ho, rfl⟩, ?_, ?_, ?_⟩
  · rw [bumpOrder_orderId, hoid, hr0id]
  · have hcons := matchLoop_conserve inc.side inc.price inc.quantity opp0 r2.orderId
    have hnd2 : ((matchLoop inc.side inc.price inc.quantity opp0).2.2.map
        Resting.orderId).Nodup := hoppnd.sublist hsuffix.sublist
    have h1 : remFor (matchLoop inc.side inc.price inc.quantity opp0).2.2 r2.orderId =
        r2.remaining := remFor_nodup _ r2 hnd2 hr2
    have h0 : remFor opp0 r2.orderId = r0.remaining := by
      rw [← hr0id]
      exact remFor_nodup opp0 r0 hoppnd hr0
    rw [bumpOrder_quantity, bumpOrder_filled, hoid, hr0id]
    omega
  · exact matchLoop_rest_pos inc.side inc.price inc.quantity opp0 hpos r2 hr2

theorem step_traded_le (inc : IncOrder) (orders : List LOrder) (opp0 : List Resting)
    (hordnd : (orders.map LOrder.orderId).Nodup)
    (hoppnd : (opp0.map Resting.orderId).Nodup)
    (hpos : ∀ r ∈ opp0, 0 < r.remaining)
    (hbacking : ∀ r ∈ opp0, ∃ o ∈ orders,
      o.orderId = r.orderId ∧ r.remaining = o.quantity - o.filled)
    (hle : ∀ o ∈ orders, o.filled ≤ o.quantity)
    (o : LOrder) (ho : o ∈ orders) :
    tradedAgainst (matchLoop inc.side inc.price inc.quantity opp0).1 o.orderId ≤
      o.quantity - o.filled := by
  by_cases hin : o.orderId ∈ opp0.map Resting.orderId
  · obtain ⟨r0, hr0, hr0id⟩ := List.mem_map.mp hin
    obtain ⟨o2, ho2, ho2id, ho2rem⟩ := hbacking r0 hr0
    have heqo : o2 = o := nodup_key_unique hordnd ho2 ho (by rw [ho2id, hr0id])
    subst heqo
    have hcons := matchLoop_conserve inc.side inc.price inc.quantity opp0 o2.orderId
    have h0 : remFor opp0 o2.orderId = r0.remaining := by
      rw [← hr0id]
      exact remFor_nodup opp0 r0 hoppnd hr0
    have hge : 0 ≤ remFor (matchLoop inc.side inc.price inc.quantity opp0).2.2 o2.orderId :=
      remFor_nonneg _ (fun r hr =>
        le_of_lt (matchLoop_rest_pos inc.side inc.price inc.quantity opp0 hpos r hr))
    omega
  · rw [tradedAgainst_matchLoop_zero inc.side inc.price inc.quantity opp0 o.orderId hin]
    have := hle o ho
    omega

theorem step_orders_inv (inc : IncOrder) (orders : List LOrder)
    (trades : List TradeRec) (opp0 : List Resting) (n : Nat) (st0 : OrderStatus)
    (hordnd : (orders.map LOrder.orderId).Nodup)
    (hfresh : inc.orderId ∉ orders.map LOrder.orderId)
    (hq0 : 0 ≤ inc.quantity)
    (hoppnd : (opp0.map Resting.orderId).Nodup)
    (hpos : ∀ r ∈ opp0, 0 < r.remaining)
    (hoppsub : ∀ x ∈ opp0.map Resting.orderId, x ∈ orders.map LOrder.orderId)
    (hbacking : ∀ r ∈ opp0, ∃ o ∈ orders,
      o.orderId = r.orderId ∧ r.remaining = o.quantity - o.filled)
    (h0 : ∀ o ∈ orders, 0 ≤ o.filled)
    (hle : ∀ o ∈ orders, o.filled ≤ o.quantity)
    (heq : ∀ o ∈ orders, o.filled = tradeSum trades o.orderId)
    (htids : ∀ t ∈ trades, t.buyOrderId ∈ orders.map LOrder.orderId ∧
      t.sellOrderId ∈ orders.map LOrder.orderId ∧ t.buyOrderId ≠ t.sellOrderId) :
    let ML := matchLoop inc.side inc.price inc.quantity opp0
    let incRow : LOrder := ⟨inc.orderId, inc.side, inc.quantity, inc.price,
      inc.timeInForce, inc.acceptedAt, st0, inc.quantity - ML.2.1⟩
    let orders2 := incRow :: applyMakerFills ML.1 orders
    let trades2 := trades ++ mkTradeRecs inc n ML.1
    ((orders2.map LOrder.orderId).Nodup) ∧
    (∀ o2 ∈ orders2, 0 ≤ o2.filled ∧ o2.filled ≤ o2.quantity ∧
      o2.filled = tradeSum trades2 o2.orderId) ∧
    (∀ t ∈ trades2, t.buyOrderId ∈ orders2.map LOrder.orderId ∧
      t.sellOrderId ∈ orders2.map LOrder.orderId ∧ t.buyOrderId ≠ t.sellOrderId) := by
  intro ML incRow orders2 trades2
  have hQ : ∀ t ∈ ML.1, 0 < t.qty :=
    matchLoop_qty_pos inc.side inc.price inc.quantity opp0 hq0 hpos
  have hsum : sumQty ML.1 + ML.2.1 = inc.quantity :=
    matchLoop_sum inc.side inc.price inc.quantity opp0
  have hrem0 : 0 ≤ ML.2.1 :=
    matchLoop_rem_nonneg inc.side inc.price inc.quantity opp0 hq0
  have hsq : 0 ≤ sumQty ML.1 := sumQty_nonneg (fun t ht => le_of_lt (hQ t ht))
  have hids2 : orders2.map LOrder.orderId = inc.orderId :: orders.map LOrder.orderId := by
    show (incRow :: applyMakerFills ML.1 orders).map LOrder.orderId = _
    rw [List.map_cons, applyMakerFills_map_id]
  refine ⟨?_, ?_, ?_⟩
  · rw [hids2]
    exact List.nodup_cons.mpr ⟨hfresh, hordnd⟩
  · intro o2 ho2
    rcases List.mem_cons.mp ho2 with rfl | ho2m
    · refine ⟨?_, ?_, ?_⟩
      · show 0 ≤ inc.quantity - ML.2.1
        omega
      · show inc.quantity - ML.2.1 ≤ inc.quantity
        omega
      · show inc.quantity - ML.2.1 = tradeSum trades2 inc.orderId
        have hold : tradeSum trades inc.orderId = 0 :=
          tradeSum_eq_zero (fun t ht =>
            ⟨fun hb => hfresh (hb ▸ (htids t ht).1),
             fun hs => hfresh (hs ▸ (htids t ht).2.1)⟩)
        show inc.quantity - ML.2.1 = tradeSum (trades ++ mkTradeRecs inc n ML.1) inc.orderId
        rw [tradeSum_append, hold, tradeSum_mkTradeRecs_inc inc n ML.1]
        omega
    · obtain ⟨o, ho, rfl⟩ := mem_applyMakerFills.mp ho2m
      have hTA0 : 0 ≤ tradedAgainst ML.1 o.orderId :=
        tradedAgainst_nonneg _ (fun t ht => le_of_lt (hQ t ht))
      have hTAle : tradedAgainst ML.1 o.orderId ≤ o.quantity - o.filled :=
        step_traded_le inc orders opp0 hordnd hoppnd hpos hbacking hle o ho
      have hone : o.orderId ≠ inc.orderId := fun he =>
        hfresh (he ▸ List.mem_map_of_mem LOrder.orderId ho)
      have hof := h0 o ho
      have hofle := hle o ho
      refine ⟨?_, ?_, ?_⟩
      · rw [bumpOrder_filled]
        omega
      · rw [bumpOrder_filled, bumpOrder_quantity]
        omega
      · rw [bumpOrder_filled, bumpOrder_orderId]
        show o.filled + tradedAgainst ML.1 o.orderId =
          tradeSum (trades ++ mkTradeRecs inc n ML.1) o.orderId
        rw [tradeSum_append, ← heq o ho,
          tradeSum_mkTradeRecs_other inc o.orderId hone n ML.1]
  · intro t ht
    rcases List.mem_append.mp ht with htold | htnew
    · have h3 := htids t htold
      rw [hids2]
      exact ⟨List.mem_cons_of_mem _ h3.1, List.mem_cons_of_mem _ h3.2.1, h3.2.2⟩
    · obtain ⟨u, hu, hlegs⟩ := mkTradeRecs_ids inc n ML.1 t htnew
      obtain ⟨r, hr, hrid, _, _⟩ := matchLoop_maker inc.side inc.price inc.quantity opp0 u hu
      have hrmem : u.restingId ∈ orders.map LOrder.orderId := by
        refine hoppsub _ ?_
        rw [hrid]
        exact List.mem_map_of_mem Resting.orderId hr
      have hneq : inc.orderId ≠ u.restingId := fun he => hfresh (he ▸ hrmem)
      rw [hids2]
      rcases hlegs with ⟨hb, hs⟩ | ⟨hb, hs⟩
      · exact ⟨by rw [hb]; exact List.mem_cons_self _ _,
          by rw [hs]; exact List.mem_cons_of_mem _ hrmem,
          by rw [hb, hs]; exact hneq⟩
      · exact ⟨by rw [hb]; exact List.mem_cons_of_mem _ hrmem,
          by rw [hs]; exact List.mem_cons_self _ _,
          by rw [hb, hs]; exact fun he => hneq he.symm⟩

/-! ### Invariant preservation -/

theorem nodup_sub_append {l1 l2 l2s : List String}
    (hnd : (l1 ++ l2).Nodup) (hsub : List.Sublist l2s l2) :
    (l1 ++ l2s).Nodup ∧ (l2s ++ l1).Nodup := by
  obtain ⟨h1, h2, hdisj⟩ := List.nodup_append.mp hnd
  have h2s : l2s.Nodup := h2.sublist hsub
  have hdisj2 : l1.Disjoint l2s := fun _ hx hy => hdisj hx (hsub.subset hy)
  exact ⟨List.nodup_append.mpr ⟨h1, h2s, hdisj2⟩,
    List.nodup_append.mpr ⟨h2s, h1, List.disjoint_comm.mp hdisj2⟩⟩

theorem nodup_insert_append {x : String} {l1 l1x l2 l2s : List String}
    (hnd : (l1 ++ l2).Nodup) (hperm : l1x.Perm (x :: l1)) (hsub : List.Sublist l2s l2)
    (hx1 : x ∉ l1) (hx2 : x ∉ l2) : (l1x ++ l2s).Nodup ∧ (l2s ++ l1x).Nodup := by
  obtain ⟨h1, h2, hdisj⟩ := List.nodup_append.mp hnd
  have h2s : l2s.Nodup := h2.sublist hsub
  have h1x : l1x.Nodup := hperm.nodup_iff.mpr (List.nodup_cons.mpr ⟨hx1, h1⟩)
  have hdisj2 : l1x.Disjoint l2s := by
    intro y hy hy2
    rcases List.mem_cons.mp (hperm.subset hy) with rfl | hy1
    · exact hx2 (hsub.subset hy2)
    · exact hdisj hy1 (hsub.subset hy2)
  exact ⟨List.nodup_append.mpr ⟨h1x, h2s, hdisj2⟩,
    List.nodup_append.mpr ⟨h2s, h1x, List.disjoint_comm.mp hdisj2⟩⟩

theorem bookIds_sub (s : ShardState) (hs : ShardInv s) :
    ∀ x ∈ (s.bids ++ s.asks).map Resting.orderId, x ∈ s.orders.map LOrder.orderId := by
  intro x hx
  obtain ⟨r, hr, rfl⟩ := List.mem_map.mp hx
  obtain ⟨o, ho, hoid, _, _⟩ := hs.bookOrders r hr
  rw [← hoid]
  exact List.mem_map_of_mem LOrder.orderId ho

theorem acceptOrder_eq (inc : IncOrder) (s : ShardState)
    (hdup : ¬ (s.orders.any fun o => o.orderId == inc.orderId) = true) :
    acceptOrder inc s =
      setBooks inc.side
        (if 0 < (matchLoop inc.side inc.price inc.quantity (oppBook inc.side s)).2.1 ∧
            inc.timeInForce = Tif.gtc then
          List.orderedInsert (bookLe inc.side)
            ⟨inc.orderId, inc.price, inc.acceptedAt,
             (matchLoop inc.side inc.price inc.quantity (oppBook inc.side s)).2.1⟩
            (sameBook inc.side s)
        else sameBook inc.side s)
        (matchLoop inc.side inc.price inc.quantity (oppBook inc.side s)).2.2
        { s with
          orders :=
            (⟨inc.orderId, inc.side, inc.quantity, inc.price, inc.timeInForce,
              inc.acceptedAt,
              incomingStatus inc.timeInForce inc.quantity
                (matchLoop inc.side inc.price inc.quantity (oppBook inc.side s)).2.1,
              inc.quantity -
                (matchLoop inc.side inc.price inc.quantity (oppBook inc.side s)).2.1⟩ :
              LOrder) ::
              applyMakerFills
                (matchLoop inc.side inc.price inc.quantity (oppBook inc.side s)).1 s.orders
          trades := s.trades ++
            mkTradeRecs inc s.tradeCount
              (matchLoop inc.side inc.price inc.quantity (oppBook inc.side s)).1
          tradeCount := s.tradeCount +
            (matchLoop inc.side inc.price inc.quantity (oppBook inc.side s)).1.length } := by
  unfold acceptOrder
  rw [if_neg hdup]

theorem acceptOrder_inv (inc : IncOrder) (s : ShardState) (hs : ShardInv s)
    (hq0 : 0 ≤ inc.quantity) : ShardInv (acceptOrder inc s) := by
  by_cases hdup : (s.orders.any fun o => o.orderId == inc.orderId) = true
  · unfold acceptOrder
    rw [if_pos hdup]
    exact hs
  · have hfresh : inc.orderId ∉ s.orders.map LOrder.orderId := by
      intro hmem
      obtain ⟨o, ho, hoid⟩ := List.mem_map.mp hmem
      exact hdup (List.any_eq_true.mpr ⟨o, ho, by simp [hoid]⟩)
    have hmapapp : (s.bids ++ s.asks).map Resting.orderId =
        s.bids.map Resting.orderId ++ s.asks.map Resting.orderId := List.map_append _ _ _
    have hboth : (s.bids.map Resting.orderId ++ s.asks.map Resting.orderId).Nodup := by
      rw [← hmapapp]
      exact hs.bookNodup
    have hsubful := bookIds_sub s hs
    have hbidsub : ∀ x ∈ s.bids.map Resting.orderId, x ∈ s.orders.map LOrder.orderId :=
      fun x hx => hsubful x (by rw [hmapapp]; exact List.mem_append_left _ hx)
    have hasksub : ∀ x ∈ s.asks.map Resting.orderId, x ∈ s.orders.map LOrder.orderId :=
      fun x hx => hsubful x (by rw [hmapapp]; exact List.mem_append_right _ hx)
    have hincb : inc.orderId ∉ s.bids.map Resting.orderId :=
      fun h => hfresh (hbidsub _ h)
    have hinca : inc.orderId ∉ s.asks.map Resting.orderId :=
      fun h => hfresh (hasksub _ h)
    cases hside : inc.side
    · have hoppb : oppBook inc.side s = s.asks := by rw [hside]; rfl
      have hsameb : sameBook inc.side s = s.bids := by rw [hside]; rfl
      have hsetb : ∀ (sm op : List Resting) (X : ShardState),
          setBooks inc.side sm op X = { X with bids := sm, asks := op } := by
        intro sm op X
        rw [hside]
        rfl
      rw [acceptOrder_eq inc s hdup, hoppb, hsameb, hsetb]
      set ML := matchLoop inc.side inc.price inc.quantity s.asks with hML
      have hoppnd : (s.asks.map Resting.orderId).Nodup := (List.nodup_append.mp hboth).2.1
      have hbidnd : (s.bids.map Resting.orderId).Nodup := (List.nodup_append.mp hboth).1
      have hdisjBA : (s.bids.map Resting.orderId).Disjoint (s.asks.map Resting.orderId) :=
        (List.nodup_append.mp hboth).2.2
      have hpos : ∀ r ∈ s.asks, 0 < r.remaining := by
        intro r hr
        obtain ⟨o, _, _, _, hp⟩ := hs.bookOrders r (List.mem_append_right _ hr)
        exact hp
      have hbacking : ∀ r ∈ s.asks, ∃ o ∈ s.orders,
          o.orderId = r.orderId ∧ r.remaining = o.quantity - o.filled := by
        intro r hr
        obtain ⟨o, ho, h1, h2, _⟩ := hs.bookOrders r (List.mem_append_right _ hr)
        exact ⟨o, ho, h1, h2⟩
      obtain ⟨S1, S2, S3⟩ := step_orders_inv inc s.orders s.trades s.asks s.tradeCount
        (incomingStatus inc.timeInForce inc.quantity ML.2.1) hs.ordersNodup hfresh hq0
        hoppnd hpos hasksub hbacking hs.fill_nonneg hs.fill_le hs.fill_eq hs.trade_ids
      have hsubopp : List.Sublist (ML.2.2.map Resting.orderId) (s.asks.map Resting.orderId) :=
        (matchLoop_suffix inc.side inc.price inc.quantity s.asks).sublist
      have hsame : ∀ r ∈ s.bids, ∃ o2 ∈ applyMakerFills ML.1 s.orders,
          o2.orderId = r.orderId ∧ r.remaining = o2.quantity - o2.filled ∧
          0 < r.remaining := by
        intro r hr
        obtain ⟨o, ho, hoid, hrem, hposr⟩ := hs.bookOrders r (List.mem_append_left _ hr)
        have hnotin : r.orderId ∉ s.asks.map Resting.orderId :=
          fun h => hdisjBA (List.mem_map_of_mem Resting.orderId hr) h
        have hzero : tradedAgainst ML.1 o.orderId = 0 := by
          rw [hoid]
          exact tradedAgainst_matchLoop_zero inc.side inc.price inc.quantity s.asks
            r.orderId hnotin
        have hbump : bumpOrder ML.1 o = o := bumpOrder_id_of_zero hzero
        have hmem : bumpOrder ML.1 o ∈ applyMakerFills ML.1 s.orders :=
          mem_applyMakerFills.mpr ⟨o, ho, rfl⟩
        rw [hbump] at hmem
        exact ⟨o, hmem, hoid, hrem, hposr⟩
      have hOB := step_opp_backing inc s.orders s.asks hs.ordersNodup hoppnd hpos hbacking
      refine ⟨S1, ?_, ?_, fun o ho => (S2 o ho).1, fun o ho => (S2 o ho).2.1,
        fun o ho => (S2 o ho).2.2, S3, ?_, ?_⟩
      · show ((_ ++ ML.2.2).map Resting.orderId).Nodup
        rw [List.map_append]
        by_cases hrest : 0 < ML.2.1 ∧ inc.timeInForce = Tif.gtc
        · rw [if_pos hrest]
          have hperm : ((List.orderedInsert (bookLe inc.side)
              ⟨inc.orderId, inc.price, inc.acceptedAt, ML.2.1⟩ s.bids).map
                Resting.orderId).Perm
              (inc.orderId :: s.bids.map Resting.orderId) := by
            simpa using (List.perm_orderedInsert (bookLe inc.side)
              ⟨inc.orderId, inc.price, inc.acceptedAt, ML.2.1⟩ s.bids).map Resting.orderId
          exact (nodup_insert_append hboth hperm hsubopp hincb hinca).1
        · rw [if_neg hrest]
          exact (nodup_sub_append hboth hsubopp).1
      · intro r hr
        rcases List.mem_append.mp hr with hrs | hro
        · by_cases hrest : 0 < ML.2.1 ∧ inc.timeInForce = Tif.gtc
          · rw [if_pos hrest] at hrs
            rcases (List.mem_orderedInsert _).mp hrs with rfl | hrb
            · refine ⟨_, List.mem_cons_self _ _, rfl, ?_, hrest.1⟩
              show ML.2.1 = inc.quantity - (inc.quantity - ML.2.1)
              omega
            · obtain ⟨o2, ho2, h1, h2, h3⟩ := hsame r hrb
              exact ⟨o2, List.mem_cons_of_mem _ ho2, h1, h2, h3⟩
          · rw [if_neg hrest] at hrs
            obtain ⟨o2, ho2, h1, h2, h3⟩ := hsame r hrs
            exact ⟨o2, List.mem_cons_of_mem _ ho2, h1, h2, h3⟩
        · obtain ⟨o2, ho2, h1, h2, h3⟩ := hOB r hro
          exact ⟨o2, List.mem_cons_of_mem _ ho2, h1, h2, h3⟩
      · show List.Pairwise (bookLe Side.buy) _
        by_cases hrest : 0 < ML.2.1 ∧ inc.timeInForce = Tif.gtc
        · rw [if_pos hrest, hside]
          exact List.Sorted.orderedInsert _ _ hs.bidsSorted
        · rw [if_neg hrest]
          exact hs.bidsSorted
      · show List.Pairwise (bookLe Side.sell) ML.2.2
        exact matchLoop_sorted inc.side inc.price Side.sell inc.quantity s.asks hs.asksSorted
    · have hoppb : oppBook inc.side s = s.bids := by rw [hside]; rfl
      have hsameb : sameBook inc.side s = s.asks := by rw [hside]; rfl
      have hsetb : ∀ (sm op : List Resting) (X : ShardState),
          setBooks inc.side sm op X = { X with asks := sm, bids := op } := by
        intro sm op X
        rw [hside]
        rfl
      rw [acceptOrder_eq inc s hdup, hoppb, hsameb, hsetb]
      set ML := matchLoop inc.side inc.price inc.quantity s.bids with hML
      have hoppnd : (s.bids.map Resting.orderId).Nodup := (List.nodup_append.mp hboth).1
      have hasknd : (s.asks.map Resting.orderId).Nodup := (List.nodup_append.mp hboth).2.1
      have hdisjBA : (s.bids.map Resting.orderId).Disjoint (s.asks.map Resting.orderId) :=
        (List.nodup_append.mp hboth).2.2
      have hpos : ∀ r ∈ s.bids, 0 < r.remaining := by
        intro r hr
        obtain ⟨o, _, _, _, hp⟩ := hs.bookOrders r (List.mem_append_left _ hr)
        exact hp
      have hbacking : ∀ r ∈ s.bids, ∃ o ∈ s.orders,
          o.orderId = r.orderId ∧ r.remaining = o.quantity - o.filled := by
        intro r hr
        obtain ⟨o, ho, h1, h2, _⟩ := hs.bookOrders r (List.mem_append_left _ hr)
        exact ⟨o, ho, h1, h2⟩
      obtain ⟨S1, S2, S3⟩ := step_orders_inv inc s.orders s.trades s.bids s.tradeCount
        (incomingStatus inc.timeInForce inc.quantity ML.2.1) hs.ordersNodup hfresh hq0
        hoppnd hpos hbidsub hbacking hs.fill_nonneg hs.fill_le hs.fill_eq hs.trade_ids
      have hsubopp : List.Sublist (ML.2.2.map Resting.orderId) (s.bids.map Resting.orderId) :=
        (matchLoop_suffix inc.side inc.price inc.quantity s.bids).sublist
      have hsame : ∀ r ∈ s.asks, ∃ o2 ∈ applyMakerFills ML.1 s.orders,
          o2.orderId = r.orderId ∧ r.remaining = o2.quantity - o2.filled ∧
          0 < r.remaining := by
        intro r hr
        obtain ⟨o, ho, hoid, hrem, hposr⟩ := hs.bookOrders r (List.mem_append_right _ hr)
        have hnotin : r.orderId ∉ s.bids.map Resting.orderId :=
          fun h => hdisjBA h (List.mem_map_of_mem Resting.orderId hr)
        have hzero : tradedAgainst ML.1 o.orderId = 0 := by
          rw [hoid]
          exact tradedAgainst_matchLoop_zero inc.side inc.price inc.quantity s.bids
            r.orderId hnotin
        have hbump : bumpOrder ML.1 o = o := bumpOrder_id_of_zero hzero
        have hmem : bumpOrder ML.1 o ∈ applyMakerFills ML.1 s.orders :=
          mem_applyMakerFills.mpr ⟨o, ho, rfl⟩
        rw [hbump] at hmem
        exact ⟨o, hmem, hoid, hrem, hposr⟩
      have hOB := step_opp_backing inc s.orders s.bids hs.ordersNodup hoppnd hpos hbacking
      refine ⟨S1, ?_, ?_, fun o ho => (S2 o ho).1, fun o ho => (S2 o ho).2.1,
        fun o ho => (S2 o ho).2.2, S3, ?_, ?_⟩
      · show ((ML.2.2 ++ _).map Resting.orderId).Nodup
        rw [List.map_append]
        by_cases hrest : 0 < ML.2.1 ∧ inc.timeInForce = Tif.gtc
        · rw [if_pos hrest]
          have hperm : ((List.orderedInsert (bookLe inc.side)
              ⟨inc.orderId, inc.price, inc.acceptedAt, ML.2.1⟩ s.asks).map
                Resting.orderId).Perm
              (inc.orderId :: s.asks.map Resting.orderId) := by
            simpa using (List.perm_orderedInsert (bookLe inc.side)
              ⟨inc.orderId, inc.price, inc.acceptedAt, ML.2.1⟩ s.asks).map Resting.orderId
          have hboth2 : (s.asks.map Resting.orderId ++ s.bids.map Resting.orderId).Nodup :=
            List.nodup_append_comm.mp hboth
          exact (nodup_insert_append hboth2 hperm hsubopp hinca hincb).2
        · rw [if_neg hrest]
          have hboth2 : (s.asks.map Resting.orderId ++ s.bids.map Resting.orderId).Nodup :=
            List.nodup_append_comm.mp hboth
          exact (nodup_sub_append hboth2 hsubopp).2
      · intro r hr
        rcases List.mem_append.mp hr with hro | hrs
        · obtain ⟨o2, ho2, h1, h2, h3⟩ := hOB r hro
          exact ⟨o2, List.mem_cons_of_mem _ ho2, h1, h2, h3⟩
        · by_cases hrest : 0 < ML.2.1 ∧ inc.timeInForce = Tif.gtc
          · rw [if_pos hrest] at hrs
            rcases (List.mem_orderedInsert _).mp hrs with rfl | hrb
            · refine ⟨_, List.mem_cons_self _ _, rfl, ?_, hrest.1⟩
              show ML.2.1 = inc.quantity - (inc.quantity - ML.2.1)
              omega
            · obtain ⟨o2, ho2, h1, h2, h3⟩ := hsame r hrb
              exact ⟨o2, List.mem_cons_of_mem _ ho2, h1, h2, h3⟩
          · rw [if_neg hrest] at hrs
            obtain ⟨o2, ho2, h1, h2, h3⟩ := hsame r hrs
            exact ⟨o2, List.mem_cons_of_mem _ ho2, h1, h2, h3⟩
      · show List.Pairwise (bookLe Side.buy) ML.2.2
        exact matchLoop_sorted inc.side inc.price Side.buy inc.quantity s.bids hs.bidsSorted
      · show List.Pairwise (bookLe Side.sell) _
        by_cases hrest : 0 < ML.2.1 ∧ inc.timeInForce = Tif.gtc
        · rw [if_pos hrest, hside]
          exact List.Sorted.orderedInsert _ _ hs.asksSorted
        · rw [if_neg hrest]
          exact hs.asksSorted

theorem cancel_row_orderId (oid : String) (p : LOrder) :
    (if p.orderId == oid then { p with status := OrderStatus.cancelled } else p).orderId =
      p.orderId := by
  split <;> rfl

theorem cancel_row_filled (oid : String) (p : LOrder) :
    (if p.orderId == oid then { p with status := OrderStatus.cancelled } else p).filled =
      p.filled := by
  split <;> rfl

theorem cancel_row_quantity (oid : String) (p : LOrder) :
    (if p.orderId == oid then { p with status := OrderStatus.cancelled } else p).quantity =
      p.quantity := by
  split <;> rfl

theorem cancelOrder_inv (oid : String) (s : ShardState) (hs : ShardInv s) :
    ShardInv (cancelOrder oid s).1 := by
  cases hfind : s.orders.find? (fun o => o.orderId == oid) with
  | none =>
      simp only [cancelOrder, hfind]
      exact hs
  | some o =>
      simp only [cancelOrder, hfind]
      by_cases hop : o.status.isOpen = true
      · rw [if_pos hop]
        have hidmap : (s.orders.map (fun p =>
            if p.orderId == oid then { p with status := OrderStatus.cancelled } else p)).map
              LOrder.orderId = s.orders.map LOrder.orderId := by
          rw [List.map_map]
          exact List.map_congr_left (fun p _ => cancel_row_orderId oid p)
        have hmemmap : ∀ o2 ∈ s.orders, o2.orderId ≠ oid →
            o2 ∈ s.orders.map (fun p =>
              if p.orderId == oid then { p with status := OrderStatus.cancelled } else p) := by
          intro o2 ho2 hne
          have : (if o2.orderId == oid then { o2 with status := OrderStatus.cancelled }
              else o2) = o2 := by
            rw [if_neg (by simpa using hne)]
          rw [← this]
          exact List.mem_map_of_mem _ ho2
        have hbsub : List.Sublist
            ((s.bids.filter (fun r => ¬ r.orderId == oid)).map Resting.orderId)
            (s.bids.map Resting.orderId) := (List.filter_sublist _).map _
        have hasub : List.Sublist
            ((s.asks.filter (fun r => ¬ r.orderId == oid)).map Resting.orderId)
            (s.asks.map Resting.orderId) := (List.filter_sublist _).map _
        refine ⟨?_, ?_, ?_, ?_, ?_, ?_, ?_, ?_, ?_⟩
        · show ((s.orders.map _).map LOrder.orderId).Nodup
          rw [hidmap]
          exact hs.ordersNodup
        · show (((_ ++ _ : List Resting)).map Resting.orderId).Nodup
          rw [List.map_append]
          have hboth : (s.bids.map Resting.orderId ++ s.asks.map Resting.orderId).Nodup := by
            rw [← List.map_append]
            exact hs.bookNodup
          exact hboth.sublist (List.Sublist.append hbsub hasub)
        · intro r hr
          rcases List.mem_append.mp hr with hrb | hra
          · have hrb2 := List.mem_of_mem_filter hrb
            have hrne : ¬ r.orderId = oid := by
              have := List.of_mem_filter hrb
              simpa using this
            obtain ⟨o2, ho2, h1, h2, h3⟩ := hs.bookOrders r (List.mem_append_left _ hrb2)
            refine ⟨o2, hmemmap o2 ho2 (by rw [h1]; exact hrne), h1, h2, h3⟩
          · have hra2 := List.mem_of_mem_filter hra
            have hrne : ¬ r.orderId = oid := by
              have := List.of_mem_filter hra
              simpa using this
            obtain ⟨o2, ho2, h1, h2, h3⟩ := hs.bookOrders r (List.mem_append_right _ hra2)
            refine ⟨o2, hmemmap o2 ho2 (by rw [h1]; exact hrne), h1, h2, h3⟩
        · intro o2 ho2
          obtain ⟨p, hp, rfl⟩ := List.mem_map.mp ho2
          rw [cancel_row_filled]
          exact hs.fill_nonneg p hp
        · intro o2 ho2
          obtain ⟨p, hp, rfl⟩ := List.mem_map.mp ho2
          rw [cancel_row_filled, cancel_row_quantity]
          exact hs.fill_le p hp
        · intro o2 ho2
          obtain ⟨p, hp, rfl⟩ := List.mem_map.mp ho2
          rw [cancel_row_filled, cancel_row_orderId]
          exact hs.fill_eq p hp
        · intro t ht
          have h3 := hs.trade_ids t ht
          show t.buyOrderId ∈ (s.orders.map _).map LOrder.orderId ∧
            t.sellOrderId ∈ (s.orders.map _).map LOrder.orderId ∧
            t.buyOrderId ≠ t.sellOrderId
          rw [hidmap]
          exact h3
        · exact hs.bidsSorted.sublist (List.filter_sublist _)
        · exact hs.asksSorted.sublist (List.filter_sublist _)
      · rw [if_neg hop]
        exact hs

theorem processEvent_inv (s : ShardState) (e : MEvent) (hs : ShardInv s) :
    ShardInv (processEvent s e) := by
  unfold processEvent
  split_ifs with h1 h2
  · exact hs
  · cases e with
    | accepted seq inc =>
        have hwf : wellFormed (MEvent.accepted seq inc) = true := by simpa using h2
        have hq2 : 0 < inc.quantity ∧ 0 < inc.price := by simpa [wellFormed] using hwf
        have ha := acceptOrder_inv inc s hs (le_of_lt hq2.1)
        show ShardInv { acceptOrder inc s with lastSeq := seq }
        exact ⟨ha.ordersNodup, ha.bookNodup, ha.bookOrders, ha.fill_nonneg, ha.fill_le,
          ha.fill_eq, ha.trade_ids, ha.bidsSorted, ha.asksSorted⟩
    | cancelled seq oid =>
        have hc := cancelOrder_inv oid s hs
        show ShardInv { (cancelOrder oid s).1 with lastSeq := seq }
        exact ⟨hc.ordersNodup, hc.bookNodup, hc.bookOrders, hc.fill_nonneg, hc.fill_le,
          hc.fill_eq, hc.trade_ids, hc.bidsSorted, hc.asksSorted⟩
  · exact ⟨hs.ordersNodup, hs.bookNodup, hs.bookOrders, hs.fill_nonneg, hs.fill_le,
      hs.fill_eq, hs.trade_ids, hs.bidsSorted, hs.asksSorted⟩

theorem shard0_inv : ShardInv shard0 := by
  refine ⟨?_, ?_, ?_, ?_, ?_, ?_, ?_, ?_, ?_⟩ <;> simp [shard0]

theorem foldl_inv : ∀ (es : List MEvent) (s : ShardState),
    ShardInv s → ShardInv (es.foldl processEvent s) := by
  intro es
  induction es with
  | nil => exact fun s hs => hs
  | cons e es ih => exact fun s hs => ih (processEvent s e) (processEvent_inv s e hs)

theorem runShard_inv (es : List MEvent) : ShardInv (runShard es) :=
  foldl_inv es shard0 shard0_inv

/-! ### Redelivery and cancel lemmas -/

theorem processEvent_skip (s : ShardState) (e : MEvent) (h : e.seq ≤ s.lastSeq) :
    processEvent s e = s := by
  unfold processEvent
  rw [if_pos h]

theorem processEvent_lastSeq (s : ShardState) (e : MEvent) (h : ¬ e.seq ≤ s.lastSeq) :
    (processEvent s e).lastSeq = e.seq := by
  unfold processEvent
  rw [if_neg h]
  split_ifs <;> rfl

theorem foldl_dedupe : ∀ (es : List MEvent) (s : ShardState),
    es.foldl processEvent s = (dedupeStream s.lastSeq es).foldl processEvent s := by
  intro es
  induction es with
  | nil => intro s; rfl
  | cons e es ih =>
      intro s
      simp only [List.foldl_cons, dedupeStream]
      by_cases h : e.seq ≤ s.lastSeq
      · rw [if_pos h, processEvent_skip s e h]
        exact ih s
      · rw [if_neg h]
        simp only [List.foldl_cons]
        have h2 := ih (processEvent s e)
        rw [processEvent_lastSeq s e h] at h2
        exact h2

theorem runShard_dedupe (es : List MEvent) : runShard es = runShard (dedupeStream 0 es) := by
  unfold runShard
  exact foldl_dedupe es shard0

theorem cancelOrder_trades (oid : String) (s : ShardState) :
    (cancelOrder oid s).1.trades = s.trades := by
  cases hfind : s.orders.find? (fun o => o.orderId == oid) with
  | none => simp only [cancelOrder, hfind]
  | some o =>
      simp only [cancelOrder, hfind]
      split_ifs <;> rfl

theorem cancelOrder_fills (oid : String) (s : ShardState) :
    (cancelOrder oid s).1.orders.map (fun o => (o.orderId, o.filled, o.quantity)) =
      s.orders.map (fun o => (o.orderId, o.filled, o.quantity)) := by
  cases hfind : s.orders.find? (fun o => o.orderId == oid) with
  | none => simp only [cancelOrder, hfind]
  | some o =>
      simp only [cancelOrder, hfind]
      split_ifs with hop
      · show (s.orders.map _).map _ = _
        rw [List.map_map]
        refine List.map_congr_left (fun p _ => ?_)
        show ((if p.orderId == oid then { p with status := OrderStatus.cancelled }
          else p).orderId, _, _) = (p.orderId, p.filled, p.quantity)
        rw [cancel_row_orderId, cancel_row_filled, cancel_row_quantity]
      · rfl

theorem cancelOrder_success_iff (oid : String) (s : ShardState)
    (hnd : (s.orders.map LOrder.orderId).Nodup) :
    (cancelOrder oid s).2 = CancelResult.success ↔
      ∃ o ∈ s.orders, o.orderId = oid ∧ o.status.isOpen = true := by
  cases hfind : s.orders.find? (fun o => o.orderId == oid) with
  | none =>
      simp only [cancelOrder, hfind]
      constructor
      · intro h
        exact CancelResult.noConfusion h
      · rintro ⟨o, ho, hoid, _⟩
        have h2 := List.find?_eq_none.mp hfind o ho
        simp [hoid] at h2
  | some o =>
      have hmem := List.mem_of_find?_eq_some hfind
      have hoid : o.orderId = oid := by simpa using List.find?_some hfind
      simp only [cancelOrder, hfind]
      by_cases hop : o.status.isOpen = true
      · rw [if_pos hop]
        exact ⟨fun _ => ⟨o, hmem, hoid, hop⟩, fun _ => rfl⟩
      · rw [if_neg hop]
        constructor
        · intro h
          exact CancelResult.noConfusion h
        · rintro ⟨o2, ho2, hoid2, hop2⟩
          have heq2 : o2 = o := nodup_key_unique hnd ho2 hmem (by rw [hoid2, hoid])
          rw [heq2] at hop2
          exact absurd hop2 hop

theorem cancelOrder_notFound_iff (oid : String) (s : ShardState) :
    (cancelOrder oid s).2 = CancelResult.notFound ↔
      ∀ o ∈ s.orders, o.orderId ≠ oid := by
  cases hfind : s.orders.find? (fun o => o.orderId == oid) with
  | none =>
      simp only [cancelOrder, hfind]
      constructor
      · intro _ o ho
        have h2 := List.find?_eq_none.mp hfind o ho
        simpa using h2
      · intro _
        trivial
  | some o =>
      have hmem := List.mem_of_find?_eq_some hfind
      have hoid : o.orderId = oid := by simpa using List.find?_some hfind
      simp only [cancelOrder, hfind]
      constructor
      · intro h
        split_ifs at h
        all_goals exact CancelResult.noConfusion h
      · intro hall
        exact absurd hoid (hall o hmem)

/-! ### Reconciliation lemmas -/

theorem reconcilePair_processed {s : ReconState} {c : String}
    (h : c ∈ s.processedMarkers) : reconcilePair s c = s := by
  unfold reconcilePair
  rw [if_pos (by simpa using h)]

theorem reconcilePair_markers_mono {s : ReconState} {c : String} (x : String)
    (h : x ∈ s.processedMarkers) : x ∈ (reconcilePair s c).processedMarkers := by
  unfold reconcilePair
  split_ifs with hc
  · exact h
  · exact List.mem_cons_of_mem c h

theorem reconcilePair_markers_self (s : ReconState) (c : String) :
    c ∈ (reconcilePair s c).processedMarkers := by
  unfold reconcilePair
  split_ifs with hc
  · simpa using hc
  · exact List.mem_cons_self c _

theorem reconcilePass_markers_mono (cs : List String) : ∀ (s : ReconState) (x : String),
    x ∈ s.processedMarkers → x ∈ (reconcilePass s cs).processedMarkers := by
  induction cs with
  | nil => exact fun s x h => h
  | cons c cs ih =>
      intro s x h
      exact ih (reconcilePair s c) x (reconcilePair_markers_mono x h)

theorem reconcilePass_markers (cs : List String) : ∀ (s : ReconState) (x : String),
    x ∈ cs → x ∈ (reconcilePass s cs).processedMarkers := by
  induction cs with
  | nil => intro s x h; cases h
  | cons c cs ih =>
      intro s x h
      rcases List.mem_cons.mp h with rfl | h2
      · exact reconcilePass_markers_mono cs (reconcilePair s x) x
          (reconcilePair_markers_self s x)
      · exact ih (reconcilePair s c) x h2

theorem reconcilePass_noop (cs : List String) : ∀ (s : ReconState),
    (∀ c ∈ cs, c ∈ s.processedMarkers) → reconcilePass s cs = s := by
  induction cs with
  | nil => intro s _; rfl
  | cons c cs ih =>
      intro s h
      show reconcilePass (reconcilePair s c) cs = s
      rw [reconcilePair_processed (h c (List.mem_cons_self c cs))]
      exact ih s (fun x hx => h x (List.mem_cons_of_mem c hx))

theorem reconcilePair_count_other {s : ReconState} {c x : String} (hne : c ≠ x) :
    (reconcilePair s c).compensations.count x = s.compensations.count x := by
  unfold reconcilePair
  split_ifs with hc
  · rfl
  · simp [List.count_append, List.count_singleton, hne]

theorem reconcilePass_count_skip (cs : List String) : ∀ (s : ReconState) (x : String),
    x ∈ s.processedMarkers →
    (reconcilePass s cs).compensations.count x = s.compensations.count x := by
  induction cs with
  | nil => intro s x _; rfl
  | cons c cs ih =>
      intro s x hx
      show (reconcilePass (reconcilePair s c) cs).compensations.count x = _
      by_cases hcx : c = x
      · subst hcx
        rw [reconcilePair_processed hx]
        exact ih s c hx
      · rw [ih (reconcilePair s c) x (reconcilePair_markers_mono x hx),
          reconcilePair_count_other hcx]

theorem reconcilePass_count (cs : List String) : ∀ (s : ReconState) (x : String),
    x ∈ cs → x ∉ s.processedMarkers →
    (reconcilePass s cs).compensations.count x = s.compensations.count x + 1 := by
  induction cs with
  | nil => intro s x h; cases h
  | cons c cs ih =>
      intro s x hmem hnew
      show (reconcilePass (reconcilePair s c) cs).compensations.count x = _
      by_cases hcx : c = x
      · subst hcx
        have hpair : (reconcilePair s c).compensations.count c =
            s.compensations.count c + 1 := by
          unfold reconcilePair
          rw [if_neg (by simpa using hnew)]
          simp [List.count_append, List.count_singleton]
        rw [reconcilePass_count_skip cs (reconcilePair s c) c
          (reconcilePair_markers_self s c), hpair]
      · have hmem2 : x ∈ cs := by
          rcases List.mem_cons.mp hmem with rfl | h2
          · exact absurd rfl hcx
          · exact h2
        have hnew2 : x ∉ (reconcilePair s c).processedMarkers := by
          unfold reconcilePair
          split_ifs with hc
          · exact hnew
          · intro hx
            rcases List.mem_cons.mp hx with rfl | h2
            · exact hcx rfl
            · exact hnew h2
        rw [ih (reconcilePair s c) x hmem2 hnew2, reconcilePair_count_other hcx]

theorem markConflicted_rowIds (rows : List RegionRow) (rid : String) :
    (markConflicted rows rid).map RegionRow.rowId = rows.map RegionRow.rowId := by
  unfold markConflicted
  rw [List.map_map]
  refine List.map_congr_left (fun r _ => ?_)
  show (if r.rowId == rid then { r with conflicted := true } else r).rowId = r.rowId
  split <;> rfl

theorem markAuthoritative_rowIds (rows : List RegionRow) (rid : String) :
    (markAuthoritative rows rid).map RegionRow.rowId = rows.map RegionRow.rowId := by
  unfold markAuthoritative
  rw [List.map_map]
  refine List.map_congr_left (fun r _ => ?_)
  show (if r.rowId == rid then { r with authoritative := true } else r).rowId = r.rowId
  split <;> rfl

theorem markConflicted_auth (rows : List RegionRow) (rid : String) :
    (markConflicted rows rid).map RegionRow.authoritative =
      rows.map RegionRow.authoritative := by
  unfold markConflicted
  rw [List.map_map]
  refine List.map_congr_left (fun r _ => ?_)
  show (if r.rowId == rid then { r with conflicted := true } else r).authoritative =
    r.authoritative
  split <;> rfl

theorem markAuthoritative_conf (rows : List RegionRow) (rid : String) :
    (markAuthoritative rows rid).map RegionRow.conflicted =
      rows.map RegionRow.conflicted := by
  unfold markAuthoritative
  rw [List.map_map]
  refine List.map_congr_left (fun r _ => ?_)
  show (if r.rowId == rid then { r with authoritative := true } else r).conflicted =
    r.conflicted
  split <;> rfl

theorem reconcilePass_leader_rowIds (cs : List String) : ∀ (s : ReconState),
    (reconcilePass s cs).leaderRows.map RegionRow.rowId =
      s.leaderRows.map RegionRow.rowId := by
  induction cs with
  | nil => intro s; rfl
  | cons c cs ih =>
      intro s
      show (reconcilePass (reconcilePair s c) cs).leaderRows.map RegionRow.rowId = _
      rw [ih (reconcilePair s c)]
      unfold reconcilePair
      split_ifs with hc
      · rfl
      · exact markAuthoritative_rowIds s.leaderRows c

theorem reconcilePass_follower_rowIds (cs : List String) : ∀ (s : ReconState),
    (reconcilePass s cs).followerRows.map RegionRow.rowId =
      s.followerRows.map RegionRow.rowId := by
  induction cs with
  | nil => intro s; rfl
  | cons c cs ih =>
      intro s
      show (reconcilePass (reconcilePair s c) cs).followerRows.map RegionRow.rowId = _
      rw [ih (reconcilePair s c)]
      unfold reconcilePair
      split_ifs with hc
      · rfl
      · exact markConflicted_rowIds s.followerRows c

theorem reconcilePass_leader_conf (cs : List String) : ∀ (s : ReconState),
    (reconcilePass s cs).leaderRows.map RegionRow.conflicted =
      s.leaderRows.map RegionRow.conflicted := by
  induction cs with
  | nil => intro s; rfl
  | cons c cs ih =>
      intro s
      show (reconcilePass (reconcilePair s c) cs).leaderRows.map RegionRow.conflicted = _
      rw [ih (reconcilePair s c)]
      unfold reconcilePair
      split_ifs with hc
      · rfl
      · exact markAuthoritative_conf s.leaderRows c

theorem reconcilePass_follower_auth (cs : List String) : ∀ (s : ReconState),
    (reconcilePass s cs).followerRows.map RegionRow.authoritative =
      s.followerRows.map RegionRow.authoritative := by
  induction cs with
  | nil => intro s; rfl
  | cons c cs ih =>
      intro s
      show (reconcilePass (reconcilePair s c) cs).followerRows.map
        RegionRow.authoritative = _
      rw [ih (reconcilePair s c)]
      unfold reconcilePair
      split_ifs with hc
      · rfl
      · exact markConflicted_auth s.followerRows c

theorem markAuthoritative_sets (rows : List RegionRow) (rid : String) :
    ∀ r ∈ markAuthoritative rows rid, r.rowId = rid → r.authoritative = true := by
  intro r hr hid
  obtain ⟨p, hp, rfl⟩ := List.mem_map.mp hr
  by_cases h : (p.rowId == rid) = true
  · rw [if_pos h]
  · rw [if_neg h] at hid
    exact absurd hid (by simpa using h)

theorem markConflicted_sets (rows : List RegionRow) (rid : String) :
    ∀ r ∈ markConflicted rows rid, r.rowId = rid → r.conflicted = true := by
  intro r hr hid
  obtain ⟨p, hp, rfl⟩ := List.mem_map.mp hr
  by_cases h : (p.rowId == rid) = true
  · rw [if_pos h]
  · rw [if_neg h] at hid
    exact absurd hid (by simpa using h)

theorem markAuthoritative_keeps (rows : List RegionRow) (rid x : String)
    (h : ∀ r ∈ rows, r.rowId = x → r.authoritative = true) :
    ∀ r ∈ markAuthoritative rows rid, r.rowId = x → r.authoritative = true := by
  intro r hr hid
  obtain ⟨p, hp, rfl⟩ := List.mem_map.mp hr
  by_cases hb : (p.rowId == rid) = true
  · rw [if_pos hb]
  · rw [if_neg hb] at hid ⊢
    exact h p hp hid

theorem markConflicted_keeps (rows : List RegionRow) (rid x : String)
    (h : ∀ r ∈ rows, r.rowId = x → r.conflicted = true) :
    ∀ r ∈ markConflicted rows rid, r.rowId = x → r.conflicted = true := by
  intro r hr hid
  obtain ⟨p, hp, rfl⟩ := List.mem_map.mp hr
  by_cases hb : (p.rowId == rid) = true
  · rw [if_pos hb]
  · rw [if_neg hb] at hid ⊢
    exact h p hp hid

theorem reconcilePass_auth (x : String) : ∀ (cs : List String) (s : ReconState),
    ((x ∈ cs ∧ x ∉ s.processedMarkers) ∨
      (∀ r ∈ s.leaderRows, r.rowId = x → r.authoritative = true)) →
    ∀ r ∈ (reconcilePass s cs).leaderRows, r.rowId = x → r.authoritative = true := by
  intro cs
  induction cs with
  | nil =>
      intro s h
      rcases h with ⟨h1, _⟩ | h2
      · cases h1
      · exact h2
  | cons c cs ih =>
      intro s h
      show ∀ r ∈ (reconcilePass (reconcilePair s c) cs).leaderRows,
        r.rowId = x → r.authoritative = true
      rcases h with ⟨hmem, hnew⟩ | hdone
      · by_cases hcx : c = x
        · subst hcx
          refine ih (reconcilePair s c) (Or.inr ?_)
          unfold reconcilePair
          rw [if_neg (by simpa using hnew)]
          exact markAuthoritative_sets s.leaderRows c
        · have hmem2 : x ∈ cs := by
            rcases List.mem_cons.mp hmem with rfl | h2
            · exact absurd rfl hcx
            · exact h2
          have hnew2 : x ∉ (reconcilePair s c).processedMarkers := by
            unfold reconcilePair
            split_ifs with hc
            · exact hnew
            · intro hx
              rcases List.mem_cons.mp hx with rfl | h2
              · exact hcx rfl
              · exact hnew h2
          exact ih (reconcilePair s c) (Or.inl ⟨hmem2, hnew2⟩)
      · refine ih (reconcilePair s c) (Or.inr ?_)
        unfold reconcilePair
        split_ifs with hc
        · exact hdone
        · exact markAuthoritative_keeps s.leaderRows c x hdone

theorem reconcilePass_conf (x : String) : ∀ (cs : List String) (s : ReconState),
    ((x ∈ cs ∧ x ∉ s.processedMarkers) ∨
      (∀ r ∈ s.followerRows, r.rowId = x → r.conflicted = true)) →
    ∀ r ∈ (reconcilePass s cs).followerRows, r.rowId = x → r.conflicted = true := by
  intro cs
  induction cs with
  | nil =>
      intro s h
      rcases h with ⟨h1, _⟩ | h2
      · cases h1
      · exact h2
  | cons c cs ih =>
      intro s h
      show ∀ r ∈ (reconcilePass (reconcilePair s c) cs).followerRows,
        r.rowId = x → r.conflicted = true
      rcases h with ⟨hmem, hnew⟩ | hdone
      · by_cases hcx : c = x
        · subst hcx
          refine ih (reconcilePair s c) (Or.inr ?_)
          unfold reconcilePair
          rw [if_neg (by simpa using hnew)]
          exact markConflicted_sets s.followerRows c
        · have hmem2 : x ∈ cs := by
            rcases List.mem_cons.mp hmem with rfl | h2
            · exact absurd rfl hcx
            · exact h2
          have hnew2 : x ∉ (reconcilePair s c).processedMarkers := by
            unfold reconcilePair
            split_ifs with hc
            · exact hnew
            · intro hx
              rcases List.mem_cons.mp hx with rfl | h2
              · exact hcx rfl
              · exact hnew h2
          exact ih (reconcilePair s c) (Or.inl ⟨hmem2, hnew2⟩)
      · refine ih (reconcilePair s c) (Or.inr ?_)
        unfold reconcilePair
        split_ifs with hc
        · exact hdone
        · exact markConflicted_keeps s.followerRows c x hdone

/-! ## Claim theorems for the matching engine and reconciliation -/

/-- Claim C3: in every state a matching shard can reach by consuming an
arbitrary delivered event sequence (redelivery included), every ledger
order `o` satisfies `0 ≤ filledQuantity ≤ quantity`, and the sum of the
quantities of all trades whose buy or sell leg is `o.orderId` never exceeds
`o.quantity`. -/
theorem tulip_C3_no_double_fill (es : List MEvent) (o : LOrder)
    (ho : o ∈ (runShard es).orders) :
    0 ≤ o.filled ∧ o.filled ≤ o.quantity ∧
    tradeSum (runShard es).trades o.orderId ≤ o.quantity := by
  have hs := runShard_inv es
  refine ⟨hs.fill_nonneg o ho, hs.fill_le o ho, ?_⟩
  rw [← hs.fill_eq o ho]
  exact hs.fill_le o ho

/-- Witness for C3 at a concrete reachable state. -/
theorem tulip_C3_no_double_fill_witness :
    0 ≤ c3Row.filled ∧ c3Row.filled ≤ c3Row.quantity ∧
    tradeSum (runShard c3Events).trades c3Row.orderId ≤ c3Row.quantity :=
  tulip_C3_no_double_fill c3Events c3Row (by decide)

/-- Claim C4: with a best resting order `r` on the opposite book and a
positive unfilled quantity, the matching step produces a trade iff the
crossing rule holds — a BUY crosses iff `r.price ≤ buy.price`, a SELL
crosses iff `sell.price ≤ r.price` — and then the first trade executes at
the resting (maker) order's price with quantity
`min(remaining(incoming), remaining(resting))`; every trade of the pass
executes at its own resting order's price. -/
theorem tulip_C4_crossing (side : Side) (p rem : Int) (r : Resting)
    (rest : List Resting) (hrem : 0 < rem) :
    ((matchLoop side p rem (r :: rest)).1 ≠ [] ↔ crossesB side p r.price = true) ∧
    (crossesB Side.buy p r.price = true ↔ r.price ≤ p) ∧
    (crossesB Side.sell p r.price = true ↔ p ≤ r.price) ∧
    (crossesB side p r.price = true →
      ∃ ts2, (matchLoop side p rem (r :: rest)).1 =
        (⟨r.orderId, r.price, min rem r.remaining⟩ : MTrade) :: ts2) ∧
    (∀ t ∈ (matchLoop side p rem (r :: rest)).1,
      ∃ r0 ∈ r :: rest, t.restingId = r0.orderId ∧ t.price = r0.price) := by
  refine ⟨?_, by simp [crossesB], by simp [crossesB], ?_, ?_⟩
  · simp only [matchLoop]
    by_cases hc : crossesB side p r.price = true
    · rw [if_pos ⟨hrem, hc⟩]
      by_cases hq : r.remaining ≤ rem
      · rw [if_pos hq]
        simp [hc]
      · rw [if_neg hq]
        simp [hc]
    · rw [if_neg (fun hand => hc hand.2)]
      simp [hc]
  · intro hc
    simp only [matchLoop]
    rw [if_pos ⟨hrem, hc⟩]
    by_cases hq : r.remaining ≤ rem
    · rw [if_pos hq]
      refine ⟨(matchLoop side p (rem - r.remaining) rest).1, ?_⟩
      rw [min_eq_right hq]
    · rw [if_neg hq]
      refine ⟨[], ?_⟩
      rw [min_eq_left (by omega)]
  · intro t ht
    obtain ⟨r0, hr0, h1, h2, _⟩ := matchLoop_maker side p rem (r :: rest) t ht
    exact ⟨r0, hr0, h1, h2⟩

/-- Witness for C4 at a concrete input. -/
theorem tulip_C4_crossing_witness :
    ∃ ts2, (matchLoop Side.buy 100 8 [(⟨"S1", 100, 1, 5⟩ : Resting)]).1 =
      (⟨"S1", 100, min 8 5⟩ : MTrade) :: ts2 :=
  (tulip_C4_crossing Side.buy 100 8 ⟨"S1", 100, 1, 5⟩ [] (by decide)).2.2.2.1 (by decide)

/-- Claim C5: the matching loop serves resting orders as a prefix of the
book queue in queue order (so with the book maintained in price-time order —
third conjunct pair — matching is FIFO, never price- or time-inverted), and
on the spec's concrete scenario — resting SELL 5@100 at T1, resting SELL
5@100 at T2 > T1, incoming BUY 8@100 — the engine produces exactly two
trades, 5@100 against the T1 order (which ends FILLED) and then 3@100
against the T2 order (PARTIALLY_FILLED with 2 remaining resting). -/
theorem tulip_C5_price_time_fifo :
    (∀ (side : Side) (p rem : Int) (opp : List Resting),
      (matchLoop side p rem opp).1.map MTrade.restingId =
        (opp.take (matchLoop side p rem opp).1.length).map Resting.orderId) ∧
    (∀ es : List MEvent, List.Pairwise (bookLe Side.buy) (runShard es).bids ∧
      List.Pairwise (bookLe Side.sell) (runShard es).asks) ∧
    (runShard c5Events).trades =
      [⟨"TRADE#B1#0", "B1", "S1", 100, 5, 3⟩, ⟨"TRADE#B1#1", "B1", "S2", 100, 3, 3⟩] ∧
    (runShard c5Events).orders =
      [⟨"B1", Side.buy, 8, 100, Tif.gtc, 3, OrderStatus.filled, 8⟩,
       ⟨"S2", Side.sell, 5, 100, Tif.gtc, 2, OrderStatus.partlyFilled, 3⟩,
       ⟨"S1", Side.sell, 5, 100, Tif.gtc, 1, OrderStatus.filled, 5⟩] ∧
    (runShard c5Events).asks = [⟨"S2", 100, 2, 2⟩] ∧
    (runShard c5Events).bids = [] :=
  ⟨fun side p rem opp => matchLoop_fifo side p rem opp,
   fun es => ⟨(runShard_inv es).bidsSorted, (runShard_inv es).asksSorted⟩,
   rfl, rfl, rfl, rfl⟩

/-- Claim C6: the matching engine is deterministic — two runs from a fresh
shard over delivered sequences with the same logical (deduplicated) event
sequence, in particular two runs over the identical sequence, produce the
same trades, the same final order statuses, and in fact identical final
states. -/
theorem tulip_C6_determinism (d1 d2 : List MEvent)
    (h : dedupeStream 0 d1 = dedupeStream 0 d2) :
    (runShard d1).trades = (runShard d2).trades ∧
    (runShard d1).orders.map (fun o => (o.orderId, o.status)) =
      (runShard d2).orders.map (fun o => (o.orderId, o.status)) ∧
    runShard d1 = runShard d2 := by
  have he : runShard d1 = runShard d2 := by
    rw [runShard_dedupe d1, runShard_dedupe d2, h]
  exact ⟨by rw [he], by rw [he], he⟩

/-- Witness for C6: a redelivered event changes nothing. -/
theorem tulip_C6_determinism_witness :
    (runShard [MEvent.accepted 1 sellT1, MEvent.accepted 1 sellT1,
      MEvent.accepted 2 sellT2]).trades =
      (runShard [MEvent.accepted 1 sellT1, MEvent.accepted 2 sellT2]).trades ∧
    runShard [MEvent.accepted 1 sellT1, MEvent.accepted 1 sellT1,
      MEvent.accepted 2 sellT2] =
      runShard [MEvent.accepted 1 sellT1, MEvent.accepted 2 sellT2] := by
  have h := tulip_C6_determinism
    [MEvent.accepted 1 sellT1, MEvent.accepted 1 sellT1, MEvent.accepted 2 sellT2]
    [MEvent.accepted 1 sellT1, MEvent.accepted 2 sellT2] (by decide)
  exact ⟨h.1, h.2.2⟩

/-- Claim C9: on any reachable shard state, cancel succeeds iff an order
with that id exists and is still open; it reports not-found iff no such
order exists; and cancellation never touches executed trades or fill
quantities — the trade list and every order's `(orderId, filled, quantity)`
are unchanged, so it affects only the remaining open quantity. -/
theorem tulip_C9_cancel (es : List MEvent) (oid : String) :
    ((cancelOrder oid (runShard es)).2 = CancelResult.success ↔
      ∃ o ∈ (runShard es).orders, o.orderId = oid ∧ o.status.isOpen = true) ∧
    ((cancelOrder oid (runShard es)).2 = CancelResult.notFound ↔
      ∀ o ∈ (runShard es).orders, o.orderId ≠ oid) ∧
    (cancelOrder oid (runShard es)).1.trades = (runShard es).trades ∧
    ((cancelOrder oid (runShard es)).1.orders.map
        (fun o => (o.orderId, o.filled, o.quantity)) =
      (runShard es).orders.map (fun o => (o.orderId, o.filled, o.quantity))) :=
  ⟨cancelOrder_success_iff oid (runShard es) (runShard_inv es).ordersNodup,
   cancelOrder_notFound_iff oid (runShard es),
   cancelOrder_trades oid (runShard es),
   cancelOrder_fills oid (runShard es)⟩

/-- Claim C10: a reconciliation pass over the detected conflicts is
idempotent — re-running it is a no-op, so no second compensating event is
emitted for an already-flagged conflict; it deletes no trade/order row in
either region; the compensating `Reconciled` event for a fresh conflict
pair is appended exactly once; and it leaves the leader row (and only the
leader row) marked authoritative and the follower row flagged
`conflicted=true`. -/
theorem tulip_C10_reconciliation (s : ReconState) (cs : List String) (pairId : String)
    (hmem : pairId ∈ cs)
    (hnew : pairId ∉ s.processedMarkers)
    (hcount : s.compensations.count pairId = 0) :
    reconcilePass (reconcilePass s cs) cs = reconcilePass s cs ∧
    (reconcilePass s cs).compensations.count pairId = 1 ∧
    (reconcilePass (reconcilePass s cs) cs).compensations.count pairId = 1 ∧
    (reconcilePass s cs).leaderRows.map RegionRow.rowId =
      s.leaderRows.map RegionRow.rowId ∧
    (reconcilePass s cs).followerRows.map RegionRow.rowId =
      s.followerRows.map RegionRow.rowId ∧
    (∀ r ∈ (reconcilePass s cs).leaderRows, r.rowId = pairId →
      r.authoritative = true) ∧
    (∀ r ∈ (reconcilePass s cs).followerRows, r.rowId = pairId →
      r.conflicted = true) ∧
    (reconcilePass s cs).leaderRows.map RegionRow.conflicted =
      s.leaderRows.map RegionRow.conflicted ∧
    (reconcilePass s cs).followerRows.map RegionRow.authoritative =
      s.followerRows.map RegionRow.authoritative := by
  have hidem : reconcilePass (reconcilePass s cs) cs = reconcilePass s cs :=
    reconcilePass_noop cs _ (fun c hc => reconcilePass_markers cs s c hc)
  have hc1 : (reconcilePass s cs).compensations.count pairId = 1 := by
    rw [reconcilePass_count cs s pairId hmem hnew, hcount]
  refine ⟨hidem, hc1, by rw [hidem]; exact hc1,
    reconcilePass_leader_rowIds cs s, reconcilePass_follower_rowIds cs s,
    reconcilePass_auth pairId cs s (Or.inl ⟨hmem, hnew⟩),
    reconcilePass_conf pairId cs s (Or.inl ⟨hmem, hnew⟩),
    reconcilePass_leader_conf cs s, reconcilePass_follower_auth cs s⟩

/-- Witness for C10 on a concrete one-conflict state. -/
theorem tulip_C10_reconciliation_witness :
    reconcilePass (reconcilePass recon0 ["T1"]) ["T1"] = reconcilePass recon0 ["T1"] ∧
    (reconcilePass recon0 ["T1"]).compensations.count "T1" = 1 ∧
    (∀ r ∈ (reconcilePass recon0 ["T1"]).followerRows, r.rowId = "T1" →
      r.conflicted = true) := by
  have h := tulip_C10_reconciliation recon0 ["T1"] "T1" (by decide) (by decide) (by decide)
  exact ⟨h.1, h.2.1, h.2.2.2.2.2.2.1⟩
